import Mathlib

/-!
Verification development for the ibpmvis flow-visualization program.

The program (src/ibpmvis.py) reads a flow definition (nodes carrying
fields, plus structural node-to-node edges), infers field-level lineage
links by token-matching source field aliases inside target field formulas
(readFlow), assigns layout levels to nodes by longest-path propagation
from in-degree-zero roots (compute_levels), and renders an interactive
document whose embedded script computes ancestor/descendant reachability
with a visited-set guarded depth-first walk (traverse).

This file is a shallow embedding of these functions: Python dicts become
association lists with insertion-order semantics, Python exceptions become
Except values, and the embedded script traversal becomes a fuel-indexed
recursion whose fuel provably suffices.
-/

namespace Ibpmvis

/-! ## Association-list dictionaries (Python dict / JS object semantics)

A Python dict is modelled as a list of key-value pairs in insertion
order.  Assigning to an existing key replaces the value in place keeping
the position; assigning to a fresh key appends at the end.  Lookup finds
the first (hence unique, for lists built by dictSet) occurrence. -/

def dictGet {κ α : Type} [DecidableEq κ] (k : κ) : List (κ × α) → Option α
  | [] => none
  | p :: rest => if p.1 = k then some p.2 else dictGet k rest

/-- Python `d[k] = v`: replace in place, or append when the key is new. -/
def dictSet {κ α : Type} [DecidableEq κ] (k : κ) (v : α) : List (κ × α) → List (κ × α)
  | [] => [(k, v)]
  | p :: rest => if p.1 = k then (k, v) :: rest else p :: dictSet k v rest

/-- Python `defaultdict(list)` append: `d[k].append(v)`. -/
def dictPush {κ α : Type} [DecidableEq κ] (k : κ) (v : α) : List (κ × List α) → List (κ × List α)
  | [] => [(k, [v])]
  | p :: rest => if p.1 = k then (p.1, p.2 ++ [v]) :: rest else p :: dictPush k v rest

/-- Lookup with a default, like `d.get(k, dflt)` or `defaultdict` read. -/
def dictGetD {κ α : Type} [DecidableEq κ] (k : κ) (m : List (κ × α)) (dflt : α) : α :=
  (dictGet k m).getD dflt

/-! ## Token matching (readFlow lines 43-45)

The pattern built by readFlow is
`(?<![a-zA-Z0-9_])` + re.escape(sField) + `(?![a-zA-Z0-9_])`,
searched with `re.search`: the escaped alias must occur literally,
with no alphanumeric/underscore character immediately before or after.
We model the search over the list of characters of the formula: one
candidate position per position of the string (including the end
position), left to right, keeping track of the preceding character. -/

/-- The character class `[a-zA-Z0-9_]` of the guard lookarounds. -/
def isWordChar (c : Char) : Bool :=
  (97 ≤ c.toNat && c.toNat ≤ 122) || (65 ≤ c.toNat && c.toNat ≤ 90) ||
    (48 ≤ c.toNat && c.toNat ≤ 57) || (c.toNat == 95)

/-- The negative lookbehind: satisfied at the string start (no
preceding character) or when the preceding character is not a word
character. -/
def prevOk : Option Char → Bool
  | none => true
  | some c => !isWordChar c

/-- The negative lookahead: satisfied at the string end or when the
next character is not a word character. -/
def headOk : List Char → Bool
  | [] => true
  | c :: _ => !isWordChar c

/-- Does the escaped alias match at the current position, with both
boundary guards satisfied? -/
def tokenMatchAt (tok : List Char) (prev : Option Char) (rest : List Char) : Bool :=
  tok.isPrefixOf rest && prevOk prev && headOk (rest.drop tok.length)

/-- `re.search`: try every position left to right. -/
def tokenSearch (tok : List Char) : Option Char → List Char → Bool
  | prev, [] => tokenMatchAt tok prev []
  | prev, c :: rest => tokenMatchAt tok prev (c :: rest) || tokenSearch tok (some c) rest

/-- `re.search(pattern, formula)` truthiness for the word-boundary-guarded
literal alias pattern of readFlow. -/
def matchesToken (tok formula : String) : Bool :=
  tokenSearch tok.toList none formula.toList

/-- The character preceding an occurrence that begins after prefix
`pre`: the last character of `pre`, or the ambient preceding character
when `pre` is empty. -/
def lastOr : List Char → Option Char → Option Char
  | [], prev => prev
  | c :: rest, _ => lastOr rest (some c)

/-- Declarative reading of the match: the token occurs somewhere in the
text as a whole word, i.e. the text splits as `pre ++ tok ++ suf` with a
non-word character (or nothing) on each side. -/
def TokenOccurs (tok : List Char) (prev : Option Char) (text : List Char) : Prop :=
  ∃ pre suf, text = pre ++ tok ++ suf ∧ prevOk (lastOr pre prev) = true ∧ headOk suf = true

/-! ## The data model of readFlow (lines 8-61)

Input shape: a flow holds raw nodes and edges.  A raw node has an alias,
an optional name, an optional type tag, and three field groups: `output`
(alias plus optional formula), `inoutput` (alias only; the formula is
synthesized as the alias), and `fields` (alias plus select flag; included
only when selected, formula synthesized as the alias). -/

structure OutField where
  fieldAlias : String
  formula : Option String
deriving DecidableEq, Repr

structure SelField where
  fieldAlias : String
  select : Bool
deriving DecidableEq, Repr

structure RawNode where
  nodeAlias : String
  name : Option String
  nodeTypeAlias : Option String
  output : List OutField
  inoutput : List String
  fields : List SelField
deriving DecidableEq, Repr

structure Flow where
  nodes : List RawNode
  edges : List (String × String)
deriving DecidableEq, Repr

/-- Catalog entry for one field: its formula text (always materialized,
`field.get('formula', '')`) and the optional inferred-source reference
written by the lineage loop (`nodes[tgt]['output'][tField]['source']`). -/
structure FieldMeta where
  formula : String
  source : Option (String × String)
deriving DecidableEq, Repr

/-- Catalog entry for one node (readFlow lines 26-31). -/
structure Node where
  name : Option String
  nodeAlias : String
  nodeType : Option String
  output : List (String × FieldMeta)
deriving DecidableEq, Repr

structure Endpoint where
  nodeId : String
  fieldAlias : String
deriving DecidableEq, Repr

structure Link where
  source : Endpoint
  target : Endpoint
deriving DecidableEq, Repr

structure FlowResult where
  nodes : List (String × Node)
  allLinks : List Link
deriving DecidableEq, Repr

/-- Field collection of one raw node (readFlow lines 15-25): output
fields first (formula verbatim, defaulting to the empty string), then
inoutput fields (formula synthesized as the alias), then selected fields
(likewise), later groups overwriting earlier entries with the same alias. -/
def buildFields (n : RawNode) : List (String × FieldMeta) :=
  n.fields.foldl (fun m f => if f.select then dictSet f.fieldAlias ⟨f.fieldAlias, none⟩ m else m)
    (n.inoutput.foldl (fun m a => dictSet a ⟨a, none⟩ m)
      (n.output.foldl (fun m f => dictSet f.fieldAlias ⟨f.formula.getD "", none⟩ m) []))

/-- The node catalog (readFlow lines 9-31): every non-exception raw node
is entered under its alias. -/
def buildCatalog (ns : List RawNode) : List (String × Node) :=
  ns.foldl (fun m n =>
    if n.nodeTypeAlias = some "exception" then m
    else dictSet n.nodeAlias ⟨n.name, n.nodeAlias, n.nodeTypeAlias, buildFields n⟩ m) []

/-- `nodes[tgt]['output'][tField]['source'] = {'nodeId': src, 'fieldAlias': sField}`
(readFlow lines 47-50): update the inferred-source reference of one field
of one node, in place. -/
def setSource (nodes : List (String × Node)) (tgt tField src sField : String) :
    List (String × Node) :=
  nodes.map (fun p => (p.1,
    if p.1 = tgt then
      { p.2 with output := p.2.output.map (fun q => (q.1,
          if q.1 = tField then { q.2 with source := some (src, sField) } else q.2)) }
    else p.2))

def mkLink (src sField tgt tField : String) : Link :=
  ⟨⟨src, sField⟩, ⟨tgt, tField⟩⟩

/-- One (target field, source field) probe (readFlow lines 42-60): on a
boundary-safe match of the source alias inside the target formula, record
the inferred source and append the link. -/
def processPair (src tgt tField : String) (formula : String)
    (acc : List (String × Node) × List Link) (sField : String) :
    List (String × Node) × List Link :=
  if matchesToken sField formula then
    (setSource acc.1 tgt tField src sField, acc.2 ++ [mkLink src sField tgt tField])
  else acc

/-- One structural edge (readFlow lines 35-60).  `nodes[src]` and
`nodes[tgt]` raise KeyError (modelled as `Except.error` carrying the
missing key) when the referenced alias is absent from the catalog; the
source lookup happens first (line 38).  Otherwise every (target field,
source field) pair is probed in insertion order. -/
def processEdge (nodes : List (String × Node)) (links : List Link) (src tgt : String) :
    Except String (List (String × Node) × List Link) :=
  match dictGet src nodes with
  | none => .error src
  | some srcNode =>
    match dictGet tgt nodes with
    | none => .error tgt
    | some tgtNode =>
      .ok (tgtNode.output.foldl
        (fun acc tf =>
          (srcNode.output.map Prod.fst).foldl (processPair src tgt tf.1 tf.2.formula) acc)
        (nodes, links))

/-- The edge loop of readFlow: process edges left to right, short-circuiting
on the first KeyError. -/
def readFlowEdges : List (String × Node) → List Link → List (String × String) →
    Except String (List (String × Node) × List Link)
  | nodes, links, [] => .ok (nodes, links)
  | nodes, links, e :: es =>
    match processEdge nodes links e.1 e.2 with
    | .error s => .error s
    | .ok p => readFlowEdges p.1 p.2 es

/-- readFlow (lines 8-61): build the catalog, then infer all links. -/
def readFlow (f : Flow) : Except String FlowResult :=
  match readFlowEdges (buildCatalog f.nodes) [] f.edges with
  | .error s => .error s
  | .ok p => .ok ⟨p.1, p.2⟩

/-- The formula recorded for field `fa` of node `nid` in a catalog. -/
def getFormula (nodes : List (String × Node)) (nid fa : String) : Option String :=
  match dictGet nid nodes with
  | none => none
  | some n => (dictGet fa n.output).map (fun m => m.formula)

/-- The inferred-source reference recorded for field `fa` of node `nid`. -/
def getSourceRef (nodes : List (String × Node)) (nid fa : String) :
    Option (Option (String × String)) :=
  match dictGet nid nodes with
  | none => none
  | some n => (dictGet fa n.output).map (fun m => m.source)

/-- The source aliases matching a target formula, in the iteration order
of the source field mapping. -/
def matchingAliases (srcFields : List (String × FieldMeta)) (formula : String) : List String :=
  (srcFields.map Prod.fst).filter (fun s => matchesToken s formula)

/-- The links one edge contributes: for every target field, one link per
matching source alias (readFlow lines 40-60). -/
def linksFor (src tgt : String) (srcNode tgtNode : Node) : List Link :=
  tgtNode.output.flatMap
    (fun tf => (matchingAliases srcNode.output tf.2.formula).map
      (fun s => mkLink src s tgt tf.1))

/-! ## compute_levels (lines 64-88)

Kahn-style longest-path layering.  The Python state is three dicts
(children, indegree, levels) and a FIFO queue.  `levels` maps a node id
to `None` (unassigned) or an integer; `indegree[c] -= 1` and `levels[c]`
raise KeyError on a missing key, `levels[nid] + 1` raises TypeError when
the value is None, and `sorted(groups)` raises TypeError when it has to
compare None with an integer.  All of these are modelled as
`Except.error`.  The while loop is embedded with an explicit fuel that is
an upper bound on the number of iterations Python can perform (each
dict key is enqueued at most once, because its in-degree value strictly
decreases and is tested against zero; the initial queue is a subset of
the indegree keys, of which there are at most `nodes.length +
links.length`), so the embedded loop stops exactly where Python stops:
on an empty queue or an exception. -/

def srcN (l : Link) : String := l.source.nodeId

def tgtN (l : Link) : String := l.target.nodeId

/-- The links whose target is node `c`. -/
def intoLinks (links : List Link) (c : String) : List Link :=
  links.filter (fun l => tgtN l = c)

/-- The links whose source is node `u`. -/
def fromLinks (links : List Link) (u : String) : List Link :=
  links.filter (fun l => srcN l = u)

/-- The number of field-level links whose target is node `c`: the
in-degree of `c` in the projected node-level adjacency (with
multiplicity, exactly as the Python loop counts it). -/
def intoCount (links : List Link) (c : String) : Nat :=
  (intoLinks links c).length

/-- How many links into `c` come from an already-processed source. -/
def doneCount (links : List Link) (P : List String) (c : String) : Nat :=
  ((intoLinks links c).filter (fun l => srcN l ∈ P)).length

/-- `children[src].append(tgt)` over all links (lines 67-71). -/
def buildChildren (links : List Link) : List (String × List String) :=
  links.foldl (fun m l => dictPush (srcN l) (tgtN l) m) []

/-- `indegree[tgt] = indegree.get(tgt, 0) + 1`: bump, appending a fresh
key with value 1 when absent. -/
def bumpIndeg (k : String) : List (String × Int) → List (String × Int)
  | [] => [(k, 1)]
  | p :: rest => if p.1 = k then (p.1, p.2 + 1) :: rest else p :: bumpIndeg k rest

/-- `indegree = {nid: 0 for nid in nodes}` then bump per link. -/
def initIndegree (nodes : List String) (links : List Link) : List (String × Int) :=
  links.foldl (fun m l => bumpIndeg (tgtN l) m)
    (nodes.foldl (fun m n => dictSet n (0 : Int) m) [])

structure BfsState where
  queue : List String
  indegree : List (String × Int)
  levels : List (String × Option Int)
deriving DecidableEq, Repr

/-- Initial state (lines 66-75): seed the queue with the zero-indegree
keys in dict order, give every node level None, then level 0 to every
queued node. -/
def initState (nodes : List String) (links : List Link) : BfsState :=
  let ind := initIndegree nodes links
  let q := (ind.filter (fun p => p.2 = 0)).map Prod.fst
  let lv0 := nodes.foldl (fun m n => dictSet n (none : Option Int) m) []
  ⟨q, ind, q.foldl (fun m n => dictSet n (some (0 : Int)) m) lv0⟩

/-- The body of `for c in children[nid]` (lines 78-84), in Python
evaluation order: decrement `indegree[c]` (KeyError when absent), read
`levels[nid] + 1` (KeyError / TypeError), compare-and-set `levels[c]`
(KeyError when absent), and enqueue `c` when its in-degree reached 0. -/
def childStep (nid : String) (st : BfsState) (c : String) : Except String BfsState :=
  match dictGet c st.indegree with
  | none => .error ("KeyError: " ++ c)
  | some d =>
    let ind := dictSet c (d - 1) st.indegree
    match dictGet nid st.levels with
    | none => .error ("KeyError: " ++ nid)
    | some none => .error "TypeError: unsupported operand type"
    | some (some v) =>
      let lvl := v + 1
      match dictGet c st.levels with
      | none => .error ("KeyError: " ++ c)
      | some cur =>
        let lv :=
          match cur with
          | none => dictSet c (some lvl) st.levels
          | some w => if lvl > w then dictSet c (some lvl) st.levels else st.levels
        .ok ⟨if d - 1 = 0 then st.queue ++ [c] else st.queue, ind, lv⟩

/-- The compare-and-set on `levels[c]` performed by childStep, as a
standalone function (used to state characterization lemmas). -/
def stepLevels (c : String) (lvl : Int) (cur : Option Int)
    (levels : List (String × Option Int)) : List (String × Option Int) :=
  match cur with
  | none => dictSet c (some lvl) levels
  | some w => if lvl > w then dictSet c (some lvl) levels else levels

/-- The while loop (lines 76-84), fuel-indexed. -/
def bfsLoop (children : List (String × List String)) :
    Nat → BfsState → Except String BfsState
  | 0, st => .ok st
  | fuel + 1, st =>
    match st.queue with
    | [] => .ok st
    | nid :: rest =>
      match (dictGetD nid children []).foldlM (childStep nid) ⟨rest, st.indegree, st.levels⟩ with
      | .error s => .error s
      | .ok st2 => bfsLoop children fuel st2

/-- The level assignment computed by the propagation loop: the final
`levels` dict (or the exception the loop raised). -/
def computeLevelsMap (nodes : List String) (links : List Link) :
    Except String (List (String × Option Int)) :=
  match bfsLoop (buildChildren links)
      ((initState nodes links).queue.length + nodes.length + links.length)
      (initState nodes links) with
  | .error s => .error s
  | .ok st => .ok st.levels

/-- `groups[lvl].append(nid)` over the levels dict (lines 85-87). -/
def groupByLevel (lv : List (String × Option Int)) : List (Option Int × List String) :=
  lv.foldl (fun g p => dictPush p.2 p.1 g) []

def insertSorted (x : Int) : List Int → List Int
  | [] => [x]
  | y :: ys => if x ≤ y then x :: y :: ys else y :: insertSorted x ys

def sortInts : List Int → List Int
  | [] => []
  | x :: xs => insertSorted x (sortInts xs)

/-- `sorted(groups)` over the group keys: with at least two keys one of
which is None, Python has to compare None with another key and raises
TypeError; otherwise the keys are sorted ascending (a singleton or empty
list is returned as is, no comparison ever runs). -/
def pySortLevelKeys (ks : List (Option Int)) : Except String (List (Option Int)) :=
  match ks with
  | [] => .ok []
  | [k] => .ok [k]
  | _ =>
    if ks.contains none then .error "TypeError: not supported between instances"
    else .ok ((sortInts (ks.filterMap id)).map some)

/-- compute_levels (lines 64-88): propagate levels, group by level, and
return the groups by ascending level key. -/
def compute_levels (nodes : List String) (links : List Link) :
    Except String (List (List String)) :=
  match computeLevelsMap nodes links with
  | .error s => .error s
  | .ok lv =>
    let groups := groupByLevel lv
    match pySortLevelKeys (groups.map Prod.fst) with
    | .error s => .error s
    | .ok ks => .ok (ks.map (fun k => dictGetD k groups []))

/-! ## main (lines 91-113), up to the data payload

main loads the input, calls readFlow inside a try/except that reports
the error and exits 1 without writing anything, then computes levels and
embeds `{'nodes': ..., 'links': ..., 'levels': ...}` into the emitted
document.  We model the pipeline up to that payload; an
uncaught exception from compute_levels likewise produces no artifact. -/

structure Payload where
  nodes : List (String × Node)
  links : List Link
  levels : List (List String)
deriving DecidableEq, Repr

def runFlow (f : Flow) : Except String Payload :=
  match readFlow f with
  | .error e => .error ("Failed to load JSON: KeyError: " ++ e)
  | .ok r =>
    match compute_levels (r.nodes.map Prod.fst) r.allLinks with
    | .error e => .error e
    | .ok levels => .ok ⟨r.nodes, r.allLinks, levels⟩

/-! ## The embedded reachability traversal (template lines 214-217)

    function traverse(map, key, vis) {
      if (vis[key]) return; vis[key] = true;
      (map[key] || []).forEach(k => traverse(map, k, vis));
    }

The visited set is modelled as the list of keys marked true, shared by
the recursive calls (threaded through the fold).  The recursion is
fuel-indexed; `traverse` passes a fuel that provably suffices (the
recursion depth is bounded by the number of distinct keys, each level of
the active chain having marked one more of them). -/

def traverseF (m : List (String × List String)) : Nat → List String → String → List String
  | 0, vis, _ => vis
  | fuel + 1, vis, key =>
    if key ∈ vis then vis
    else (dictGetD key m []).foldl (traverseF m fuel) (key :: vis)

/-- Every key that can appear in a walk: the start key plus every key
and every adjacency-list entry of the map. -/
def keyUniverse (m : List (String × List String)) (key : String) : List String :=
  (key :: m.flatMap (fun p => p.1 :: p.2)).dedup

/-- `traverse(map, key, {})`: the visited set after the walk from `key`. -/
def traverse (m : List (String × List String)) (key : String) : List String :=
  traverseF m (keyUniverse m key).length [] key

/-- Forward adjacency of the highlighter (template lines 176-182), keyed
by `nodeId|fieldAlias`. -/
def linkKey (e : Endpoint) : String := e.nodeId ++ "|" ++ e.fieldAlias

def buildFwd (links : List Link) : List (String × List String) :=
  links.foldl (fun m l => dictPush (linkKey l.source) (linkKey l.target) m) []

def buildBwd (links : List Link) : List (String × List String) :=
  links.foldl (fun m l => dictPush (linkKey l.target) (linkKey l.source) m) []

/-- One step of the adjacency relation of a map. -/
def stepRel (m : List (String × List String)) (a b : String) : Prop :=
  b ∈ dictGetD a m []

/-- How many elements of `U` are already visited. -/
def visCount (U vis : List String) : Nat :=
  (U.filter (fun u => u ∈ vis)).length

/-- The projected node-level adjacency of a link set: `a → b` when some
field-level link goes from a field of `a` to a field of `b`. -/
def projRel (links : List Link) (a b : String) : Prop :=
  ∃ l ∈ links, srcN l = a ∧ tgtN l = b

/-! ## Concrete inputs used by witnesses and counterexamples -/

/-- Scenario A of the spec: `n1.a` with no formula, `n2.b` with formula
`a + 1`, one structural edge. -/
def demoFlowA : Flow :=
  ⟨[⟨"n1", none, none, [⟨"a", none⟩], [], []⟩,
    ⟨"n2", none, none, [⟨"b", some "a + 1"⟩], [], []⟩],
   [("n1", "n2")]⟩

def demoResultA : FlowResult := (readFlow demoFlowA).toOption.getD ⟨[], []⟩

/-- Two source fields `a`, `b` both matching the target formula `a + b`. -/
def demoNodesMulti : List (String × Node) :=
  buildCatalog
    [⟨"s", none, none, [⟨"a", none⟩, ⟨"b", none⟩], [], []⟩,
     ⟨"t", none, none, [⟨"y", some "a + b"⟩], [], []⟩]

/-- A flow whose source node carries a field with the empty alias and
whose target node carries a field with empty formula text. -/
def cexFlowEmpty : Flow :=
  ⟨[⟨"n1", none, none, [⟨"", none⟩], [], []⟩,
    ⟨"n2", none, none, [⟨"t", none⟩], [], []⟩],
   [("n1", "n2")]⟩

def cexResultEmpty : FlowResult := (readFlow cexFlowEmpty).toOption.getD ⟨[], []⟩

/-- A flow with an exception-typed node that is referenced by an edge. -/
def cexFlowMissing : Flow :=
  ⟨[⟨"e1", none, some "exception", [], [], []⟩,
    ⟨"n2", none, none, [⟨"b", none⟩], [], []⟩],
   [("e1", "n2")]⟩

/-- Field-level links forming the node-level cycle A to B to C to A. -/
def cycleLinks : List Link :=
  [mkLink "A" "x" "B" "x", mkLink "B" "x" "C" "x", mkLink "C" "x" "A" "x"]

/-- The state reached by processing the single edge of the two-matches
example (both fields of node s match the formula of field y of node t). -/
def multiResult : List (String × Node) × List Link :=
  (processEdge demoNodesMulti [] "s" "t").toOption.getD ([], [])

def multiSrcNode : Node := (dictGet "s" demoNodesMulti).getD ⟨none, "", none, []⟩

def multiTgtNode : Node := (dictGet "t" demoNodesMulti).getD ⟨none, "", none, []⟩

/-- Well-formedness of one link against a catalog: both endpoints
resolve (node key and field key), and the source alias token-matches the
formula recorded for the target field. -/
def LinkWF (nodes : List (String × Node)) (l : Link) : Prop :=
  (getFormula nodes l.source.nodeId l.source.fieldAlias).isSome = true ∧
  ∃ fm, getFormula nodes l.target.nodeId l.target.fieldAlias = some fm ∧
    matchesToken l.source.fieldAlias fm = true

/-- Every node of the catalog has duplicate-free field keys (true for
every catalog readFlow builds, since field maps are Python dicts). -/
def NodupOutputs (nodes : List (String × Node)) : Prop :=
  ∀ k n, dictGet k nodes = some n → (n.output.map Prod.fst).Nodup

/-- Loop invariant of the level-propagation loop between iterations.
`P` is the (ghost) list of already-dequeued nodes, in order. -/
structure KInv (nodes : List String) (links : List Link) (P : List String)
    (st : BfsState) : Prop where
  nodupPQ : (P ++ st.queue).Nodup
  subPQ : ∀ x ∈ P ++ st.queue, x ∈ nodes
  ind : ∀ c ∈ nodes, dictGet c st.indegree =
    some ((intoCount links c : Int) - doneCount links P c)
  lvNodes : ∀ c ∈ nodes, ∃ v, dictGet c st.levels = some v
  lvInt : ∀ u ∈ P ++ st.queue, ∃ v : Int, dictGet u st.levels = some (some v)
  edge : ∀ l ∈ links, srcN l ∈ P → ∃ vu vc : Int,
    dictGet (srcN l) st.levels = some (some vu) ∧
    dictGet (tgtN l) st.levels = some (some vc) ∧ vu < vc
  resolved : ∀ u ∈ P ++ st.queue, doneCount links P u = intoCount links u
  complete : ∀ c ∈ nodes, doneCount links P c = intoCount links c → c ∈ P ++ st.queue

/-- Invariant during the child loop of one dequeued node `nid`:
`dn` are the links out of `nid` already processed, `td` the remainder. -/
structure FInv (nodes : List String) (links : List Link) (P : List String)
    (nid : String) (dn td : List Link) (st : BfsState) : Prop where
  split : fromLinks links nid = dn ++ td
  nodupPQ : (P ++ nid :: st.queue).Nodup
  subPQ : ∀ x ∈ P ++ nid :: st.queue, x ∈ nodes
  ind : ∀ c ∈ nodes, dictGet c st.indegree =
    some ((intoCount links c : Int) - (doneCount links P c + intoCount dn c))
  lvNodes : ∀ c ∈ nodes, ∃ v, dictGet c st.levels = some v
  lvInt : ∀ u ∈ P ++ nid :: st.queue, ∃ v : Int, dictGet u st.levels = some (some v)
  edge : ∀ l ∈ links, srcN l ∈ P → ∃ vu vc : Int,
    dictGet (srcN l) st.levels = some (some vu) ∧
    dictGet (tgtN l) st.levels = some (some vc) ∧ vu < vc
  edgeDn : ∀ l ∈ dn, ∃ vu vc : Int,
    dictGet (srcN l) st.levels = some (some vu) ∧
    dictGet (tgtN l) st.levels = some (some vc) ∧ vu < vc
  resolved : ∀ u ∈ P ++ nid :: st.queue,
    doneCount links P u + intoCount dn u = intoCount links u
  complete : ∀ c ∈ nodes, doneCount links P c + intoCount dn c = intoCount links c →
    c ∈ P ++ nid :: st.queue

/-- Nodes and links of the witness instance for the layering claim. -/
def demoLevelNodes : List String := ["n1", "n2"]

def demoLevelLinks : List Link := [mkLink "n1" "a" "n2" "b"]

end Ibpmvis

namespace Ibpmvis

/-! # Theorems -/

/-! ## Generic dictionary lemmas -/

theorem dictGet_dictSet_self {κ α : Type} [DecidableEq κ] (k : κ) (v : α)
    (m : List (κ × α)) : dictGet k (dictSet k v m) = some v := by
  induction m with
  | nil => simp [dictGet, dictSet]
  | cons p rest ih =>
    by_cases h : p.1 = k
    · simp [dictGet, dictSet, h]
    · simp [dictGet, dictSet, h, ih]

theorem dictGet_dictSet_other {κ α : Type} [DecidableEq κ] {k k' : κ} (v : α)
    (m : List (κ × α)) (h : k ≠ k') : dictGet k' (dictSet k v m) = dictGet k' m := by
  induction m with
  | nil => simp [dictGet, dictSet, h]
  | cons p rest ih =>
    by_cases hp : p.1 = k
    · simp [dictGet, dictSet, hp, h]
    · simp [dictGet, dictSet, hp, ih]

theorem dictGet_dictPush_self {κ α : Type} [DecidableEq κ] (k : κ) (v : α)
    (m : List (κ × List α)) :
    dictGet k (dictPush k v m) = some ((dictGet k m).getD [] ++ [v]) := by
  induction m with
  | nil => simp [dictGet, dictPush]
  | cons p rest ih =>
    by_cases h : p.1 = k
    · simp [dictGet, dictPush, h]
    · simp [dictGet, dictPush, h, ih]

theorem dictGet_dictPush_other {κ α : Type} [DecidableEq κ] {k k' : κ} (v : α)
    (m : List (κ × List α)) (h : k ≠ k') : dictGet k' (dictPush k v m) = dictGet k' m := by
  induction m with
  | nil => simp [dictGet, dictPush, h]
  | cons p rest ih =>
    by_cases hp : p.1 = k
    · simp [dictGet, dictPush, hp, h]
    · simp [dictGet, dictPush, hp, ih]

theorem dictGet_dictSet {κ α : Type} [DecidableEq κ] (k k' : κ) (v : α) (m : List (κ × α)) :
    dictGet k' (dictSet k v m) = if k = k' then some v else dictGet k' m := by
  by_cases h : k = k'
  · subst h; simp [dictGet_dictSet_self]
  · simp [h, dictGet_dictSet_other v m h]

theorem mem_keys_dictSet {κ α : Type} [DecidableEq κ] (k a : κ) (v : α) (m : List (κ × α)) :
    a ∈ (dictSet k v m).map Prod.fst ↔ a = k ∨ a ∈ m.map Prod.fst := by
  induction m with
  | nil => simp [dictSet, eq_comm]
  | cons p rest ih =>
    by_cases h : p.1 = k
    · subst h
      simp [dictSet, eq_comm]
    · simp only [dictSet, if_neg h, List.map_cons, List.mem_cons, ih]
      tauto

theorem keys_nodup_dictSet {κ α : Type} [DecidableEq κ] (k : κ) (v : α) (m : List (κ × α))
    (h : (m.map Prod.fst).Nodup) : ((dictSet k v m).map Prod.fst).Nodup := by
  induction m with
  | nil => simp [dictSet]
  | cons p rest ih =>
    simp only [List.map_cons, List.nodup_cons] at h
    by_cases hp : p.1 = k
    · subst hp
      simpa [dictSet, List.nodup_cons] using h
    · simp only [dictSet, if_neg hp, List.map_cons, List.nodup_cons, mem_keys_dictSet]
      refine ⟨fun hc => ?_, ih h.2⟩
      rcases hc with hc | hc
      · exact hp hc
      · exact h.1 hc

theorem dictGet_isSome_of_mem_keys {κ α : Type} [DecidableEq κ] {k : κ} {m : List (κ × α)}
    (h : k ∈ m.map Prod.fst) : (dictGet k m).isSome = true := by
  induction m with
  | nil => simp at h
  | cons p rest ih =>
    rcases List.mem_cons.mp h with h1 | h1
    · simp [dictGet, h1.symm]
    · by_cases hp : p.1 = k
      · simp [dictGet, hp]
      · simp only [dictGet, if_neg hp]
        exact ih (by simpa using h1)

theorem dictGet_of_mem_of_nodup {κ α : Type} [DecidableEq κ] {k : κ} {v : α}
    {m : List (κ × α)} (hn : (m.map Prod.fst).Nodup) (h : (k, v) ∈ m) :
    dictGet k m = some v := by
  induction m with
  | nil => simp at h
  | cons p rest ih =>
    simp only [List.map_cons, List.nodup_cons] at hn
    rcases List.mem_cons.mp h with h1 | h1
    · simp [dictGet, ← h1]
    · have hp : p.1 ≠ k := by
        intro hpk
        exact hn.1 (hpk ▸ List.mem_map_of_mem Prod.fst h1)
      simp only [dictGet, if_neg hp]
      exact ih hn.2 h1

/-- Lookup through a key-preserving value map. -/
theorem dictGet_map_shape {κ α : Type} [DecidableEq κ] (f : κ → α → α) (k : κ)
    (m : List (κ × α)) :
    dictGet k (m.map (fun p => (p.1, f p.1 p.2))) = (dictGet k m).map (f k) := by
  induction m with
  | nil => simp [dictGet]
  | cons p rest ih =>
    by_cases h : p.1 = k
    · subst h; simp [dictGet]
    · simp [dictGet, h, ih]

/-! ## setSource and processPair lemmas -/

theorem dictGet_setSource (nodes : List (String × Node)) (tgt tf src s k : String) :
    dictGet k (setSource nodes tgt tf src s) =
      (dictGet k nodes).map (fun n =>
        if k = tgt then
          { n with output := n.output.map (fun q => (q.1,
              if q.1 = tf then { q.2 with source := some (src, s) } else q.2)) }
        else n) := by
  induction nodes with
  | nil => rfl
  | cons p rest ih =>
    by_cases h : p.1 = k
    · subst h; simp [setSource, dictGet]
    · simp only [setSource, List.map_cons, dictGet, if_neg h]
      exact ih

theorem dictGet_output_update (out : List (String × FieldMeta)) (tf src s fa : String) :
    dictGet fa (out.map (fun q => (q.1,
        if q.1 = tf then { q.2 with source := some (src, s) } else q.2))) =
      (dictGet fa out).map (fun m => if fa = tf then { m with source := some (src, s) } else m) := by
  induction out with
  | nil => rfl
  | cons q rest ih =>
    by_cases h : q.1 = fa
    · subst h; simp [dictGet]
    · simp [dictGet, h, ih]

theorem getFormula_setSource (nodes : List (String × Node)) (tgt tf src s nid fa : String) :
    getFormula (setSource nodes tgt tf src s) nid fa = getFormula nodes nid fa := by
  unfold getFormula
  rw [dictGet_setSource]
  cases dictGet nid nodes with
  | none => rfl
  | some n =>
    by_cases ht : nid = tgt
    · simp only [Option.map_some', if_pos ht]
      show (dictGet fa (n.output.map _)).map _ = _
      rw [dictGet_output_update]
      cases dictGet fa n.output with
      | none => rfl
      | some m => by_cases hf : fa = tf <;> simp [hf]
    · simp [if_neg ht]

theorem getSourceRef_setSource_self (nodes : List (String × Node)) (tgt tf src s : String) :
    getSourceRef (setSource nodes tgt tf src s) tgt tf =
      (getSourceRef nodes tgt tf).map (fun _ => some (src, s)) := by
  unfold getSourceRef
  rw [dictGet_setSource]
  cases dictGet tgt nodes with
  | none => rfl
  | some n =>
    simp only [Option.map_some', if_pos rfl]
    show (dictGet tf (n.output.map _)).map _ = _
    rw [dictGet_output_update]
    cases dictGet tf n.output with
    | none => rfl
    | some m => simp

theorem getSourceRef_setSource_other (nodes : List (String × Node)) (tgt tf src s nid fa : String)
    (h : ¬(nid = tgt ∧ fa = tf)) :
    getSourceRef (setSource nodes tgt tf src s) nid fa = getSourceRef nodes nid fa := by
  unfold getSourceRef
  rw [dictGet_setSource]
  cases dictGet nid nodes with
  | none => rfl
  | some n =>
    by_cases ht : nid = tgt
    · have hf : fa ≠ tf := fun hf => h ⟨ht, hf⟩
      simp only [Option.map_some', if_pos ht]
      show (dictGet fa (n.output.map _)).map _ = _
      rw [dictGet_output_update]
      cases dictGet fa n.output with
      | none => rfl
      | some m => simp [hf]
    · simp [if_neg ht]

theorem dictGet_setSource_isNone (nodes : List (String × Node)) (tgt tf src s k : String) :
    (dictGet k (setSource nodes tgt tf src s) = none) ↔ dictGet k nodes = none := by
  rw [dictGet_setSource]
  cases dictGet k nodes <;> simp

theorem processPair_snd (src tgt tf fm : String) (acc : List (String × Node) × List Link)
    (s : String) :
    (processPair src tgt tf fm acc s).2 =
      acc.2 ++ (if matchesToken s fm then [mkLink src s tgt tf] else []) := by
  unfold processPair
  split <;> simp

theorem processPair_fst (src tgt tf fm : String) (acc : List (String × Node) × List Link)
    (s : String) :
    (processPair src tgt tf fm acc s).1 =
      if matchesToken s fm then setSource acc.1 tgt tf src s else acc.1 := by
  unfold processPair
  split <;> simp

theorem foldl_processPair_snd (src tgt tf fm : String) :
    ∀ (ss : List String) (acc : List (String × Node) × List Link),
      (ss.foldl (processPair src tgt tf fm) acc).2 =
        acc.2 ++ (ss.filter (fun s => matchesToken s fm)).map (fun s => mkLink src s tgt tf) := by
  intro ss
  induction ss with
  | nil => intro acc; simp
  | cons s rest ih =>
    intro acc
    rw [List.foldl_cons, ih, processPair_snd]
    by_cases h : matchesToken s fm <;> simp [List.filter_cons, h]

theorem foldl_processPair_getFormula (src tgt tf fm : String) :
    ∀ (ss : List String) (acc : List (String × Node) × List Link) (nid fa : String),
      getFormula (ss.foldl (processPair src tgt tf fm) acc).1 nid fa =
        getFormula acc.1 nid fa := by
  intro ss
  induction ss with
  | nil => intro acc nid fa; rfl
  | cons s rest ih =>
    intro acc nid fa
    rw [List.foldl_cons, ih]
    by_cases h : matchesToken s fm <;>
      simp [processPair_fst, h, getFormula_setSource]

theorem foldl_processPair_isNone (src tgt tf fm : String) :
    ∀ (ss : List String) (acc : List (String × Node) × List Link) (k : String),
      (dictGet k (ss.foldl (processPair src tgt tf fm) acc).1 = none) ↔
        dictGet k acc.1 = none := by
  intro ss
  induction ss with
  | nil => intro acc k; exact Iff.rfl
  | cons s rest ih =>
    intro acc k
    rw [List.foldl_cons, ih]
    by_cases h : matchesToken s fm <;>
      simp [processPair_fst, h, dictGet_setSource_isNone]

/-! ## Word-boundary token matching: lemmas for C2 -/

theorem isPrefixOf_iff_append :
    ∀ (a b : List Char), a.isPrefixOf b = true ↔ ∃ t, b = a ++ t := by
  intro a
  induction a with
  | nil => intro b; simp [List.isPrefixOf]
  | cons x xs ih =>
    intro b
    cases b with
    | nil => simp [List.isPrefixOf]
    | cons y ys =>
      simp only [List.isPrefixOf, Bool.and_eq_true, beq_iff_eq, ih ys, List.cons_append]
      constructor
      · rintro ⟨hxy, t, ht⟩
        exact ⟨t, by rw [hxy, ht]⟩
      · rintro ⟨t, ht⟩
        obtain ⟨h1, h2⟩ := List.cons.injEq .. ▸ ht
        exact ⟨h1.symm ▸ rfl, t, h2⟩

theorem lastOr_cons (c : Char) (pre : List Char) (prev : Option Char) :
    lastOr (c :: pre) prev = lastOr pre (some c) := rfl

theorem tokenMatchAt_iff (tok : List Char) (prev : Option Char) (rest : List Char) :
    tokenMatchAt tok prev rest = true ↔
      ∃ suf, rest = tok ++ suf ∧ prevOk prev = true ∧ headOk suf = true := by
  unfold tokenMatchAt
  simp only [Bool.and_eq_true, isPrefixOf_iff_append]
  constructor
  · rintro ⟨⟨⟨t, ht⟩, hp⟩, hh⟩
    refine ⟨t, ht, hp, ?_⟩
    rwa [ht, List.drop_left] at hh
  · rintro ⟨t, ht, hp, hh⟩
    exact ⟨⟨⟨t, ht⟩, hp⟩, by rwa [ht, List.drop_left]⟩

theorem tokenSearch_iff :
    ∀ (rest : List Char) (tok : List Char) (prev : Option Char),
      tokenSearch tok prev rest = true ↔ TokenOccurs tok prev rest := by
  intro rest
  induction rest with
  | nil =>
    intro tok prev
    show tokenMatchAt tok prev [] = true ↔ _
    rw [tokenMatchAt_iff]
    constructor
    · rintro ⟨suf, hs, hp, hh⟩
      obtain ⟨h1, h2⟩ := List.append_eq_nil.mp hs.symm
      exact ⟨[], [], by simp [h1, h2], hp, rfl⟩
    · rintro ⟨pre, suf, hs, hp, hh⟩
      obtain ⟨h1, h2⟩ := List.append_eq_nil.mp hs.symm
      obtain ⟨h1a, h1b⟩ := List.append_eq_nil.mp h1
      subst h1a
      exact ⟨suf, by simp [h1b, h2], hp, hh⟩
  | cons c cs ih =>
    intro tok prev
    show (tokenMatchAt tok prev (c :: cs) || tokenSearch tok (some c) cs) = true ↔ _
    rw [Bool.or_eq_true, tokenMatchAt_iff, ih]
    constructor
    · rintro (⟨suf, hs, hp, hh⟩ | ⟨pre, suf, hs, hp, hh⟩)
      · exact ⟨[], suf, by simpa using hs, hp, hh⟩
      · exact ⟨c :: pre, suf, by simp [hs], by rwa [lastOr_cons], hh⟩
    · rintro ⟨pre, suf, hs, hp, hh⟩
      cases pre with
      | nil =>
        exact Or.inl ⟨suf, by simpa using hs, hp, hh⟩
      | cons d ds =>
        simp only [List.cons_append, List.cons.injEq] at hs
        obtain ⟨hdc, hcs⟩ := hs
        subst hdc
        exact Or.inr ⟨ds, suf, hcs, by rwa [lastOr_cons] at hp, hh⟩

/-- C2: the lineage match test is a case-sensitive whole-token match of
the source alias, taken literally, inside the target formula: it holds
exactly when the formula splits as pre ++ alias ++ suf with no
alphanumeric or underscore character adjacent on either side; in
particular alias x does not match formulas max or x1 but does match x,
x+1 and (x), a metacharacter-bearing alias such as a.b is matched
literally, and matching is case-sensitive. -/
theorem c2_token_match_boundary :
    (∀ tok text : List Char, tokenSearch tok none text = true ↔ TokenOccurs tok none text) ∧
    matchesToken "x" "max" = false ∧ matchesToken "x" "x1" = false ∧
    matchesToken "x" "x" = true ∧ matchesToken "x" "x+1" = true ∧
    matchesToken "x" "(x)" = true ∧ matchesToken "a.b" "axb" = false ∧
    matchesToken "a.b" "a.b" = true ∧ matchesToken "X" "x" = false :=
  ⟨fun tok text => tokenSearch_iff text tok none,
   by decide, by decide, by decide, by decide, by decide, by decide, by decide, by decide⟩

/-! ## Generic fold-invariant lemmas -/

theorem foldl_invariant {α β : Type} (P : α → Prop) (step : α → β → α) :
    ∀ (xs : List β) (a : α), (∀ a b, b ∈ xs → P a → P (step a b)) → P a →
      P (xs.foldl step a) := by
  intro xs
  induction xs with
  | nil => intro a _ h; exact h
  | cons x rest ih =>
    intro a hstep h
    exact ih (step a x) (fun a b hb => hstep a b (List.mem_cons_of_mem x hb))
      (hstep a x (List.mem_cons_self x rest) h)

theorem foldlM_invariant {α β : Type} (P : α → Prop) (step : α → β → Except String α) :
    ∀ (xs : List β) (a out : α),
      (∀ a b, b ∈ xs → P a → ∀ r, step a b = .ok r → P r) →
      P a → xs.foldlM step a = .ok out → P out := by
  intro xs
  induction xs with
  | nil =>
    intro a out _ h hfold
    simp only [List.foldlM_nil] at hfold
    cases hfold
    exact h
  | cons x rest ih =>
    intro a out hstep h hfold
    simp only [List.foldlM_cons] at hfold
    cases hr : step a x with
    | error e => rw [hr] at hfold; cases hfold
    | ok r =>
      rw [hr] at hfold
      exact ih r out (fun a b hb => hstep a b (List.mem_cons_of_mem x hb))
        (hstep a x (List.mem_cons_self x rest) h r hr) hfold

/-! ## processEdge and readFlowEdges -/

theorem processEdge_eq (nodes : List (String × Node)) (links : List Link)
    (src tgt : String) (sN tN : Node)
    (hs : dictGet src nodes = some sN) (ht : dictGet tgt nodes = some tN) :
    processEdge nodes links src tgt =
      .ok (tN.output.foldl
        (fun acc tf => (sN.output.map Prod.fst).foldl
          (processPair src tgt tf.1 tf.2.formula) acc) (nodes, links)) := by
  unfold processEdge
  rw [hs, ht]

theorem processEdge_error_src (nodes : List (String × Node)) (links : List Link)
    (src tgt : String) (h : dictGet src nodes = none) :
    processEdge nodes links src tgt = .error src := by
  unfold processEdge
  rw [h]

theorem processEdge_error_tgt (nodes : List (String × Node)) (links : List Link)
    (src tgt : String) (sN : Node)
    (hs : dictGet src nodes = some sN) (h : dictGet tgt nodes = none) :
    processEdge nodes links src tgt = .error tgt := by
  unfold processEdge
  rw [hs, h]

theorem processEdge_ok_lookups {nodes : List (String × Node)} {links : List Link}
    {src tgt : String} {p : List (String × Node) × List Link}
    (h : processEdge nodes links src tgt = .ok p) :
    ∃ sN tN, dictGet src nodes = some sN ∧ dictGet tgt nodes = some tN := by
  unfold processEdge at h
  cases hs : dictGet src nodes with
  | none => rw [hs] at h; cases h
  | some sN =>
    cases ht : dictGet tgt nodes with
    | none => rw [hs, ht] at h; cases h
    | some tN => exact ⟨sN, tN, rfl, rfl⟩

theorem processFields_snd (src tgt : String) (ss : List String) :
    ∀ (tfs : List (String × FieldMeta)) (acc : List (String × Node) × List Link),
      (tfs.foldl (fun acc tf => ss.foldl (processPair src tgt tf.1 tf.2.formula) acc) acc).2 =
        acc.2 ++ tfs.flatMap (fun tf =>
          (ss.filter (fun s => matchesToken s tf.2.formula)).map (fun s => mkLink src s tgt tf.1)) := by
  intro tfs
  induction tfs with
  | nil => intro acc; simp
  | cons tf rest ih =>
    intro acc
    rw [List.foldl_cons, ih, foldl_processPair_snd, List.flatMap_cons, List.append_assoc]

theorem processFields_getFormula (src tgt : String) (ss : List String)
    (tfs : List (String × FieldMeta)) (acc : List (String × Node) × List Link)
    (nid fa : String) :
    getFormula (tfs.foldl (fun acc tf => ss.foldl
        (processPair src tgt tf.1 tf.2.formula) acc) acc).1 nid fa =
      getFormula acc.1 nid fa := by
  induction tfs generalizing acc with
  | nil => rfl
  | cons tf rest ih => rw [List.foldl_cons, ih, foldl_processPair_getFormula]

theorem processFields_isNone (src tgt : String) (ss : List String)
    (tfs : List (String × FieldMeta)) (acc : List (String × Node) × List Link)
    (k : String) :
    (dictGet k (tfs.foldl (fun acc tf => ss.foldl
        (processPair src tgt tf.1 tf.2.formula) acc) acc).1 = none) ↔
      dictGet k acc.1 = none := by
  induction tfs generalizing acc with
  | nil => exact Iff.rfl
  | cons tf rest ih => rw [List.foldl_cons, ih, foldl_processPair_isNone]

theorem processEdge_snd {nodes : List (String × Node)} {links : List Link}
    {src tgt : String} {sN tN : Node} {p : List (String × Node) × List Link}
    (hs : dictGet src nodes = some sN) (ht : dictGet tgt nodes = some tN)
    (h : processEdge nodes links src tgt = .ok p) :
    p.2 = links ++ linksFor src tgt sN tN := by
  rw [processEdge_eq nodes links src tgt sN tN hs ht] at h
  cases h
  rw [processFields_snd]
  rfl

theorem processEdge_getFormula {nodes : List (String × Node)} {links : List Link}
    {src tgt : String} {p : List (String × Node) × List Link}
    (h : processEdge nodes links src tgt = .ok p) (nid fa : String) :
    getFormula p.1 nid fa = getFormula nodes nid fa := by
  obtain ⟨sN, tN, hs, ht⟩ := processEdge_ok_lookups h
  rw [processEdge_eq nodes links src tgt sN tN hs ht] at h
  cases h
  rw [processFields_getFormula]

theorem processEdge_isNone {nodes : List (String × Node)} {links : List Link}
    {src tgt : String} {p : List (String × Node) × List Link}
    (h : processEdge nodes links src tgt = .ok p) (k : String) :
    (dictGet k p.1 = none) ↔ dictGet k nodes = none := by
  obtain ⟨sN, tN, hs, ht⟩ := processEdge_ok_lookups h
  rw [processEdge_eq nodes links src tgt sN tN hs ht] at h
  cases h
  rw [processFields_isNone]

theorem linksFor_mem {src tgt : String} {sN tN : Node} {l : Link}
    (h : l ∈ linksFor src tgt sN tN) :
    ∃ tf ∈ tN.output, ∃ s ∈ matchingAliases sN.output tf.2.formula,
      l = mkLink src s tgt tf.1 := by
  unfold linksFor at h
  obtain ⟨tf, htf, hl⟩ := List.mem_flatMap.mp h
  obtain ⟨s, hsmem, hl2⟩ := List.mem_map.mp hl
  exact ⟨tf, htf, s, hsmem, hl2.symm⟩

theorem mem_linksFor {src tgt : String} {sN tN : Node} {tf : String × FieldMeta}
    (htf : tf ∈ tN.output) {s : String}
    (hsmem : s ∈ matchingAliases sN.output tf.2.formula) :
    mkLink src s tgt tf.1 ∈ linksFor src tgt sN tN := by
  unfold linksFor
  exact List.mem_flatMap.mpr ⟨tf, htf, List.mem_map.mpr ⟨s, hsmem, rfl⟩⟩

/-! ## Catalog well-formedness: duplicate-free field keys -/

theorem keys_output_update (out : List (String × FieldMeta)) (tf src s : String) :
    (out.map (fun q => (q.1,
        if q.1 = tf then { q.2 with source := some (src, s) } else q.2))).map Prod.fst =
      out.map Prod.fst := by
  rw [List.map_map]
  rfl

theorem buildFields_keys_nodup (n : RawNode) : ((buildFields n).map Prod.fst).Nodup := by
  unfold buildFields
  refine foldl_invariant (fun (m : List (String × FieldMeta)) => (m.map Prod.fst).Nodup) _ n.fields _ ?_ ?_
  · intro a b _ h
    split
    · exact keys_nodup_dictSet _ _ _ h
    · exact h
  · refine foldl_invariant (fun (m : List (String × FieldMeta)) => (m.map Prod.fst).Nodup) _ n.inoutput _ ?_ ?_
    · intro a b _ h
      exact keys_nodup_dictSet _ _ _ h
    · refine foldl_invariant (fun (m : List (String × FieldMeta)) => (m.map Prod.fst).Nodup) _ n.output _ ?_ ?_
      · intro a b _ h
        exact keys_nodup_dictSet _ _ _ h
      · simp

theorem buildCatalog_nodupOutputs (ns : List RawNode) : NodupOutputs (buildCatalog ns) := by
  unfold buildCatalog
  apply foldl_invariant NodupOutputs
  · intro m n _ hP
    split
    · exact hP
    · intro k nd h
      rw [dictGet_dictSet] at h
      split at h
      · cases h
        exact buildFields_keys_nodup n
      · exact hP k nd h
  · intro k nd h
    simp [dictGet] at h

theorem nodupOutputs_setSource {nodes : List (String × Node)} (tgt tf src s : String)
    (h : NodupOutputs nodes) : NodupOutputs (setSource nodes tgt tf src s) := by
  intro k n hk
  rw [dictGet_setSource] at hk
  cases hg : dictGet k nodes with
  | none => rw [hg] at hk; cases hk
  | some n0 =>
    rw [hg, Option.map_some'] at hk
    cases hk
    split
    · show ((n0.output.map _).map Prod.fst).Nodup
      rw [keys_output_update]
      exact h k n0 hg
    · exact h k n0 hg

theorem nodupOutputs_processPair (src tgt tf fm : String)
    (acc : List (String × Node) × List Link) (s : String)
    (h : NodupOutputs acc.1) : NodupOutputs (processPair src tgt tf fm acc s).1 := by
  rw [processPair_fst]
  split
  · exact nodupOutputs_setSource tgt tf src s h
  · exact h

theorem processEdge_nodupOutputs {nodes : List (String × Node)} {links : List Link}
    {src tgt : String} {p : List (String × Node) × List Link}
    (h : processEdge nodes links src tgt = .ok p)
    (hN : NodupOutputs nodes) : NodupOutputs p.1 := by
  obtain ⟨sN, tN, hs, ht⟩ := processEdge_ok_lookups h
  rw [processEdge_eq nodes links src tgt sN tN hs ht] at h
  cases h
  exact foldl_invariant (fun (acc : List (String × Node) × List Link) => NodupOutputs acc.1) _ tN.output (nodes, links)
    (fun a tf _ hP => foldl_invariant (fun (acc : List (String × Node) × List Link) => NodupOutputs acc.1) _
      (sN.output.map Prod.fst) a
      (fun a2 s _ hP2 => nodupOutputs_processPair _ _ _ _ _ _ hP2) hP)
    hN

/-! ## Link well-formedness through readFlow -/

theorem getFormula_some_node {nodes : List (String × Node)} {nid : String} {n : Node}
    (h : dictGet nid nodes = some n) (fa : String) :
    getFormula nodes nid fa = (dictGet fa n.output).map (fun m => m.formula) := by
  unfold getFormula
  rw [h]

theorem getSourceRef_some_node {nodes : List (String × Node)} {nid : String} {n : Node}
    (h : dictGet nid nodes = some n) (fa : String) :
    getSourceRef nodes nid fa = (dictGet fa n.output).map (fun m => m.source) := by
  unfold getSourceRef
  rw [h]

theorem LinkWF_congr {a b : List (String × Node)} {l : Link}
    (heq : ∀ nid fa, getFormula a nid fa = getFormula b nid fa)
    (h : LinkWF a l) : LinkWF b l := by
  obtain ⟨h1, fm, h2, h3⟩ := h
  exact ⟨by rw [← heq]; exact h1, fm, by rw [← heq]; exact h2, h3⟩

theorem processEdge_new_links_wf {nodes : List (String × Node)} {src tgt : String}
    {sN tN : Node} (hs : dictGet src nodes = some sN) (ht : dictGet tgt nodes = some tN)
    (hN : NodupOutputs nodes) :
    ∀ l ∈ linksFor src tgt sN tN,
      LinkWF nodes l ∧ l.source.nodeId = src ∧ l.target.nodeId = tgt := by
  intro l hl
  obtain ⟨tf, htf, s, hsmem, hleq⟩ := linksFor_mem hl
  subst hleq
  unfold matchingAliases at hsmem
  obtain ⟨hskey, hsmatch⟩ := List.mem_filter.mp hsmem
  refine ⟨⟨?_, tf.2.formula, ?_, hsmatch⟩, rfl, rfl⟩
  · show (getFormula nodes src s).isSome = true
    rw [getFormula_some_node hs, Option.isSome_map']
    exact dictGet_isSome_of_mem_keys hskey
  · show getFormula nodes tgt tf.1 = some tf.2.formula
    rw [getFormula_some_node ht, dictGet_of_mem_of_nodup (hN tgt tN ht) htf]
    rfl

theorem readFlowEdges_wf :
    ∀ (es : List (String × String)) (nodes : List (String × Node)) (links : List Link)
      (p : List (String × Node) × List Link),
      readFlowEdges nodes links es = .ok p →
      NodupOutputs nodes →
      (∀ l ∈ links, LinkWF nodes l) →
      (∀ nid fa, getFormula p.1 nid fa = getFormula nodes nid fa) ∧
      (∀ l ∈ p.2, LinkWF nodes l) := by
  intro es
  induction es with
  | nil =>
    intro nodes links p h hN hlinks
    cases h
    exact ⟨fun _ _ => rfl, hlinks⟩
  | cons e rest ih =>
    intro nodes links p h hN hlinks
    unfold readFlowEdges at h
    cases hq : processEdge nodes links e.1 e.2 with
    | error s => rw [hq] at h; cases h
    | ok q =>
      rw [hq] at h
      obtain ⟨sN, tN, hs, ht⟩ := processEdge_ok_lookups hq
      have hform := processEdge_getFormula hq
      have hqlinks : ∀ l ∈ q.2, LinkWF q.1 l := by
        intro l hl
        rw [processEdge_snd hs ht hq] at hl
        rcases List.mem_append.mp hl with hl | hl
        · exact LinkWF_congr (fun nid fa => (hform nid fa).symm) (hlinks l hl)
        · exact LinkWF_congr (fun nid fa => (hform nid fa).symm)
            (processEdge_new_links_wf hs ht hN l hl).1
      obtain ⟨hform2, hwf2⟩ := ih q.1 q.2 p h (processEdge_nodupOutputs hq hN) hqlinks
      refine ⟨fun nid fa => (hform2 nid fa).trans (hform nid fa), fun l hl => ?_⟩
      exact LinkWF_congr hform (hwf2 l hl)

theorem readFlow_ok {f : Flow} {r : FlowResult} (h : readFlow f = .ok r) :
    ∃ p, readFlowEdges (buildCatalog f.nodes) [] f.edges = .ok p ∧
      r.nodes = p.1 ∧ r.allLinks = p.2 := by
  unfold readFlow at h
  cases hq : readFlowEdges (buildCatalog f.nodes) [] f.edges with
  | error s => rw [hq] at h; cases h
  | ok p => rw [hq] at h; cases h; exact ⟨p, rfl, rfl, rfl⟩

theorem readFlow_links_wf {f : Flow} {r : FlowResult} (h : readFlow f = .ok r) :
    ∀ l ∈ r.allLinks, LinkWF r.nodes l := by
  obtain ⟨p, hp, hn, hl⟩ := readFlow_ok h
  obtain ⟨hform, hwf⟩ := readFlowEdges_wf f.edges (buildCatalog f.nodes) [] p hp
    (buildCatalog_nodupOutputs f.nodes) (by intro l hl; cases hl)
  intro l hmem
  rw [hl] at hmem
  rw [hn]
  exact LinkWF_congr (fun nid fa => (hform nid fa).symm) (hwf l hmem)

/-! ## Claims C10, C8, C4, C7 -/

theorem getFormula_isSome_iff (nodes : List (String × Node)) (nid fa : String) :
    (getFormula nodes nid fa).isSome = true ↔
      ∃ n, dictGet nid nodes = some n ∧ (dictGet fa n.output).isSome = true := by
  unfold getFormula
  cases h : dictGet nid nodes with
  | none => simp
  | some n => simp [Option.isSome_map']

/-- C10: every link readFlow returns is well-formed against the returned
catalog: its source node id and target node id are keys of the node
mapping, and its source and target field aliases are fields of the
respective field mappings. -/
theorem c10_links_well_formed (f : Flow) (r : FlowResult) (l : Link)
    (h : readFlow f = .ok r) (hl : l ∈ r.allLinks) :
    (∃ n, dictGet l.source.nodeId r.nodes = some n ∧
      (dictGet l.source.fieldAlias n.output).isSome = true) ∧
    (∃ n, dictGet l.target.nodeId r.nodes = some n ∧
      (dictGet l.target.fieldAlias n.output).isSome = true) := by
  obtain ⟨hsrc, fm, htgt, _⟩ := readFlow_links_wf h l hl
  refine ⟨(getFormula_isSome_iff ..).mp hsrc, (getFormula_isSome_iff ..).mp ?_⟩
  rw [htgt]
  rfl

theorem c10_witness :
    readFlow demoFlowA = .ok demoResultA ∧
    mkLink "n1" "a" "n2" "b" ∈ demoResultA.allLinks ∧
    ((∃ n, dictGet "n1" demoResultA.nodes = some n ∧
        (dictGet "a" n.output).isSome = true) ∧
      (∃ n, dictGet "n2" demoResultA.nodes = some n ∧
        (dictGet "b" n.output).isSome = true)) :=
  ⟨rfl, by decide,
    c10_links_well_formed demoFlowA demoResultA (mkLink "n1" "a" "n2" "b")
      rfl (by decide)⟩

theorem matchesToken_empty_formula {s : String} (h : matchesToken s "" = true) : s = "" := by
  have h2 : tokenMatchAt s.toList none [] = true := h
  rw [tokenMatchAt_iff] at h2
  obtain ⟨suf, hs, _, _⟩ := h2
  obtain ⟨h1, _⟩ := List.append_eq_nil.mp hs.symm
  cases s with
  | mk data =>
    cases data with
    | nil => rfl
    | cons c cs => cases h1

/-- C8, corrected form: a field with empty formula text never appears as
the target of an emitted link whose source field alias is nonempty (the
empty alias does token-match the empty formula, which is the corner the
original claim misses), while such a field can appear as the source of
links; the last two conjuncts exhibit a source field with empty formula
on an emitted link. -/
theorem c8_empty_formula_amended :
    (∀ (f : Flow) (r : FlowResult) (l : Link), readFlow f = .ok r → l ∈ r.allLinks →
      l.source.fieldAlias ≠ "" →
      getFormula r.nodes l.target.nodeId l.target.fieldAlias ≠ some "") ∧
    (mkLink "n1" "a" "n2" "b" ∈ demoResultA.allLinks ∧
      getFormula demoResultA.nodes "n1" "a" = some "") := by
  constructor
  · intro f r l h hl hs htgt
    obtain ⟨_, fm, hfm, hmatch⟩ := readFlow_links_wf h l hl
    rw [htgt] at hfm
    cases hfm
    exact hs (matchesToken_empty_formula hmatch)
  · exact ⟨by decide, by decide⟩

theorem c8_empty_formula_witness :
    readFlow demoFlowA = .ok demoResultA ∧
    mkLink "n1" "a" "n2" "b" ∈ demoResultA.allLinks ∧
    ("a" : String) ≠ "" ∧
    getFormula demoResultA.nodes "n2" "b" ≠ some "" :=
  ⟨rfl, by decide, by decide,
    c8_empty_formula_amended.1 demoFlowA demoResultA (mkLink "n1" "a" "n2" "b")
      rfl (by decide) (by decide)⟩

/-- C8, counterexample to the claim as stated: in this flow the target
field t of node n2 has empty formula text, yet an emitted link has it as
target (its source is the empty-alias field of n1, and the empty alias
token-matches the empty formula). -/
theorem c8_empty_formula_cex :
    mkLink "n1" "" "n2" "t" ∈ cexResultEmpty.allLinks ∧
    getFormula cexResultEmpty.nodes "n2" "t" = some "" :=
  ⟨by decide, by decide⟩

theorem readFlowEdges_mem_edges :
    ∀ (es : List (String × String)) (nodes : List (String × Node)) (links : List Link)
      (p : List (String × Node) × List Link),
      readFlowEdges nodes links es = .ok p →
      ∀ l ∈ p.2, l ∈ links ∨ ∃ e ∈ es, l.source.nodeId = e.1 ∧ l.target.nodeId = e.2 := by
  intro es
  induction es with
  | nil =>
    intro nodes links p h l hl
    cases h
    exact Or.inl hl
  | cons e rest ih =>
    intro nodes links p h l hl
    unfold readFlowEdges at h
    cases hq : processEdge nodes links e.1 e.2 with
    | error s => rw [hq] at h; cases h
    | ok q =>
      rw [hq] at h
      obtain ⟨sN, tN, hs, ht⟩ := processEdge_ok_lookups hq
      rcases ih q.1 q.2 p h l hl with hin | ⟨e2, he2, hprop⟩
      · rw [processEdge_snd hs ht hq] at hin
        rcases List.mem_append.mp hin with hin | hin
        · exact Or.inl hin
        · obtain ⟨tf, _, s, _, hleq⟩ := linksFor_mem hin
          subst hleq
          exact Or.inr ⟨e, List.mem_cons_self e rest, rfl, rfl⟩
      · exact Or.inr ⟨e2, List.mem_cons_of_mem e he2, hprop⟩

/-- C4: readFlow never emits a link between fields of two nodes that do
not have a declared structural edge from the source node to the target
node: the node-id pair of every emitted link is literally one of the
declared edges. -/
theorem c4_links_need_structural_edge (f : Flow) (r : FlowResult) (l : Link)
    (h : readFlow f = .ok r) (hl : l ∈ r.allLinks) :
    (l.source.nodeId, l.target.nodeId) ∈ f.edges := by
  obtain ⟨p, hp, hn, hlinks⟩ := readFlow_ok h
  rw [hlinks] at hl
  rcases readFlowEdges_mem_edges f.edges (buildCatalog f.nodes) [] p hp l hl with
    hin | ⟨e, he, h1, h2⟩
  · cases hin
  · rw [h1, h2]
    exact he

theorem c4_witness :
    readFlow demoFlowA = .ok demoResultA ∧
    mkLink "n1" "a" "n2" "b" ∈ demoResultA.allLinks ∧
    ("n1", "n2") ∈ demoFlowA.edges :=
  ⟨rfl, by decide,
    c4_links_need_structural_edge demoFlowA demoResultA (mkLink "n1" "a" "n2" "b")
      rfl (by decide)⟩

theorem readFlowEdges_missing_error :
    ∀ (es : List (String × String)) (nodes : List (String × Node)) (links : List Link),
      (∃ e ∈ es, dictGet e.1 nodes = none ∨ dictGet e.2 nodes = none) →
      ∃ m, readFlowEdges nodes links es = .error m := by
  intro es
  induction es with
  | nil =>
    intro nodes links h
    obtain ⟨e, he, _⟩ := h
    cases he
  | cons e rest ih =>
    intro nodes links h
    obtain ⟨e2, he2, hnone⟩ := h
    cases hq : processEdge nodes links e.1 e.2 with
    | error s =>
      refine ⟨s, ?_⟩
      unfold readFlowEdges
      rw [hq]
    | ok q =>
      rcases List.mem_cons.mp he2 with heq | hmem
      · subst heq
        obtain ⟨sN, tN, hs, ht⟩ := processEdge_ok_lookups hq
        rcases hnone with hnone | hnone
        · rw [hs] at hnone; cases hnone
        · rw [ht] at hnone; cases hnone
      · have hnone2 : dictGet e2.1 q.1 = none ∨ dictGet e2.2 q.1 = none := by
          rcases hnone with hnone | hnone
          · exact Or.inl ((processEdge_isNone hq e2.1).mpr hnone)
          · exact Or.inr ((processEdge_isNone hq e2.2).mpr hnone)
        obtain ⟨m, hm⟩ := ih q.1 q.2 ⟨e2, hmem, hnone2⟩
        refine ⟨m, ?_⟩
        unfold readFlowEdges
        rw [hq]
        exact hm

/-- C7: a structural edge that references a node alias absent from the
field catalog (for example a node filtered out as an exception node) is
fatal: readFlow raises the missing key (modelled as Except.error, the
KeyError that main catches, reports and turns into exit code 1), and the
pipeline produces no output payload. -/
theorem c7_missing_node_fatal (f : Flow) (s t : String)
    (he : (s, t) ∈ f.edges)
    (hmiss : dictGet s (buildCatalog f.nodes) = none ∨
      dictGet t (buildCatalog f.nodes) = none) :
    (∃ m, readFlow f = .error m) ∧ ∃ m, runFlow f = .error m := by
  obtain ⟨m, hm⟩ := readFlowEdges_missing_error f.edges (buildCatalog f.nodes) []
    ⟨(s, t), he, hmiss⟩
  have hrf : readFlow f = .error m := by
    unfold readFlow
    rw [hm]
  refine ⟨⟨m, hrf⟩, ⟨"Failed to load JSON: KeyError: " ++ m, ?_⟩⟩
  unfold runFlow
  rw [hrf]

theorem c7_witness :
    (("e1", "n2") ∈ cexFlowMissing.edges ∧
      dictGet "e1" (buildCatalog cexFlowMissing.nodes) = none) ∧
    (∃ m, readFlow cexFlowMissing = .error m) ∧
    ∃ m, runFlow cexFlowMissing = .error m :=
  ⟨⟨by decide, by decide⟩,
    c7_missing_node_fatal cexFlowMissing "e1" "n2" (by decide) (Or.inl (by decide))⟩

/-! ## Claim C3: every match produces a link, the annotation keeps the last -/

theorem getLast?_elim_cons {α β : Type} (f : α → β) :
    ∀ (l : List α) (a : α) (d : β),
      ((a :: l).getLast?).elim d f = (l.getLast?).elim (f a) f := by
  intro l
  induction l with
  | nil => intro a d; rfl
  | cons b bs ih =>
    intro a d
    rw [List.getLast?_cons_cons, ih b d, ih b (f a)]

theorem foldl_processPair_getSourceRef_other (src tgt tf fm : String) :
    ∀ (ss : List String) (acc : List (String × Node) × List Link) (nid fa : String),
      ¬(nid = tgt ∧ fa = tf) →
      getSourceRef (ss.foldl (processPair src tgt tf fm) acc).1 nid fa =
        getSourceRef acc.1 nid fa := by
  intro ss
  induction ss with
  | nil => intro acc nid fa _; rfl
  | cons s rest ih =>
    intro acc nid fa hne
    rw [List.foldl_cons, ih _ _ _ hne, processPair_fst]
    split
    · exact getSourceRef_setSource_other _ _ _ _ _ _ _ hne
    · rfl

theorem foldl_processPair_getSourceRef_self (src tgt tf fm : String) :
    ∀ (ss : List String) (acc : List (String × Node) × List Link)
      (x : Option (String × String)),
      getSourceRef acc.1 tgt tf = some x →
      getSourceRef (ss.foldl (processPair src tgt tf fm) acc).1 tgt tf =
        some (((ss.filter (fun s => matchesToken s fm)).getLast?).elim x
          (fun s => some (src, s))) := by
  intro ss
  induction ss with
  | nil => intro acc x h; exact h
  | cons s rest ih =>
    intro acc x h
    rw [List.foldl_cons, List.filter_cons]
    by_cases hm : matchesToken s fm
    · have h2 : getSourceRef (processPair src tgt tf fm acc s).1 tgt tf =
          some (some (src, s)) := by
        rw [processPair_fst, if_pos hm, getSourceRef_setSource_self, h, Option.map_some']
      rw [ih _ _ h2, if_pos hm, getLast?_elim_cons]
    · rw [if_neg (by simpa using hm)]
      have h2 : getSourceRef (processPair src tgt tf fm acc s).1 tgt tf = some x := by
        rw [processPair_fst, if_neg hm]
        exact h
      exact ih _ _ h2

theorem processFields_getSourceRef_other (src tgt : String) (ss : List String) :
    ∀ (tfs : List (String × FieldMeta)) (acc : List (String × Node) × List Link)
      (nid fa : String),
      (∀ tf ∈ tfs, ¬(nid = tgt ∧ fa = tf.1)) →
      getSourceRef (tfs.foldl (fun acc tf => ss.foldl
          (processPair src tgt tf.1 tf.2.formula) acc) acc).1 nid fa =
        getSourceRef acc.1 nid fa := by
  intro tfs
  induction tfs with
  | nil => intro acc nid fa _; rfl
  | cons tf rest ih =>
    intro acc nid fa hne
    rw [List.foldl_cons, ih _ _ _ (fun tf2 h2 => hne tf2 (List.mem_cons_of_mem tf h2)),
      foldl_processPair_getSourceRef_other _ _ _ _ _ _ _ _
        (hne tf (List.mem_cons_self tf rest))]

theorem processFields_getSourceRef_self (src tgt : String) (ss : List String) :
    ∀ (tfs : List (String × FieldMeta)) (acc : List (String × Node) × List Link)
      (tfKey : String) (meta : FieldMeta) (x : Option (String × String)),
      (tfKey, meta) ∈ tfs → (tfs.map Prod.fst).Nodup →
      getSourceRef acc.1 tgt tfKey = some x →
      getSourceRef (tfs.foldl (fun acc tf => ss.foldl
          (processPair src tgt tf.1 tf.2.formula) acc) acc).1 tgt tfKey =
        some (((ss.filter (fun s => matchesToken s meta.formula)).getLast?).elim x
          (fun s => some (src, s))) := by
  intro tfs
  induction tfs with
  | nil => intro acc tfKey meta x hmem; cases hmem
  | cons tf rest ih =>
    intro acc tfKey meta x hmem hnd hstart
    simp only [List.map_cons, List.nodup_cons] at hnd
    rcases List.mem_cons.mp hmem with heq | hmem2
    · subst heq
      rw [List.foldl_cons,
        processFields_getSourceRef_other src tgt ss rest _ tgt tfKey
          (by
            intro tf2 h2 hc
            apply hnd.1
            show tfKey ∈ List.map Prod.fst rest
            rw [hc.2]
            exact List.mem_map_of_mem Prod.fst h2)]
      exact foldl_processPair_getSourceRef_self src tgt _ _ ss acc x hstart
    · have hkeyne : tf.1 ≠ tfKey := by
        intro hc
        exact hnd.1 (hc ▸ List.mem_map_of_mem Prod.fst hmem2)
      rw [List.foldl_cons]
      refine ih _ tfKey meta x hmem2 hnd.2 ?_
      rw [foldl_processPair_getSourceRef_other _ _ _ _ _ _ _ _
        (fun hc => hkeyne hc.2.symm)]
      exact hstart

/-- C3: for a structural edge whose source and target nodes are in the
catalog, every matching source field produces its own link in the
emitted link list (the list grows by exactly one link per (target field,
matching source alias) pair), while the inferred-source annotation of a
target field keeps only the last matching source alias in the source
field mapping's insertion order; hence when several sources match, the
annotation disagrees with every emitted link except the last one. -/
theorem c3_links_all_annotation_last (nodes : List (String × Node)) (links : List Link)
    (src tgt : String) (sN tN : Node) (tfKey : String) (meta : FieldMeta)
    (p : List (String × Node) × List Link)
    (hs : dictGet src nodes = some sN) (ht : dictGet tgt nodes = some tN)
    (hnd : (tN.output.map Prod.fst).Nodup)
    (htf : (tfKey, meta) ∈ tN.output)
    (h : processEdge nodes links src tgt = .ok p) :
    p.2 = links ++ linksFor src tgt sN tN ∧
    (∀ s ∈ matchingAliases sN.output meta.formula, mkLink src s tgt tfKey ∈ p.2) ∧
    (∀ s, (matchingAliases sN.output meta.formula).getLast? = some s →
      getSourceRef p.1 tgt tfKey = some (some (src, s))) := by
  refine ⟨processEdge_snd hs ht h, ?_, ?_⟩
  · intro s hsmem
    rw [processEdge_snd hs ht h]
    exact List.mem_append.mpr (Or.inr (mem_linksFor htf hsmem))
  · intro s hlast
    rw [processEdge_eq nodes links src tgt sN tN hs ht] at h
    cases h
    have hstart : getSourceRef nodes tgt tfKey = some meta.source := by
      rw [getSourceRef_some_node ht, dictGet_of_mem_of_nodup hnd htf]
      rfl
    rw [processFields_getSourceRef_self src tgt (sN.output.map Prod.fst) tN.output
      (nodes, links) tfKey meta meta.source htf hnd hstart]
    have : (matchingAliases sN.output meta.formula).getLast? = some s := hlast
    unfold matchingAliases at this
    rw [this]
    rfl

theorem c3_witness :
    mkLink "s" "a" "t" "y" ∈ multiResult.2 ∧
    mkLink "s" "b" "t" "y" ∈ multiResult.2 ∧
    getSourceRef multiResult.1 "t" "y" = some (some ("s", "b")) := by
  have h := c3_links_all_annotation_last demoNodesMulti [] "s" "t"
    multiSrcNode multiTgtNode "y" ⟨"a + b", none⟩ multiResult
    rfl rfl (by decide) (by decide) rfl
  exact ⟨h.2.1 "a" (by decide), h.2.1 "b" (by decide), h.2.2 "b" (by decide)⟩

/-! ## Claim C1: what compute_levels actually does on a cycle -/

/-- C1 (claim is right, code is wrong): on the three-node cycle
A to B to C to A the propagation assigns no level to any node (all
remain None), yet compute_levels neither reports nor flags them: it
silently returns the unresolved nodes as one level group.  With one
additional isolated node D (so both an integer level and None exist),
sorting the group keys raises TypeError instead of reporting the
unresolved nodes.  The code therefore never reports or flags the
unresolved nodes as the claim requires. -/
theorem c1_cycle_not_flagged :
    computeLevelsMap ["A", "B", "C"] cycleLinks =
      .ok [("A", none), ("B", none), ("C", none)] ∧
    compute_levels ["A", "B", "C"] cycleLinks = .ok [["A", "B", "C"]] ∧
    compute_levels ["A", "B", "C", "D"] cycleLinks =
      .error "TypeError: not supported between instances" :=
  ⟨rfl, rfl, rfl⟩

/-! ## Claim C6: nodes with no inbound link get level 0 -/

theorem dictGet_mem {κ α : Type} [DecidableEq κ] {k : κ} {v : α} :
    ∀ {m : List (κ × α)}, dictGet k m = some v → (k, v) ∈ m := by
  intro m
  induction m with
  | nil => intro h; cases h
  | cons p rest ih =>
    intro h
    unfold dictGet at h
    split at h
    · cases h
      rename_i heq
      rw [← heq]
      exact List.mem_cons_self p rest
    · exact List.mem_cons_of_mem p (ih h)

theorem dictGet_foldl_dictSet_const {κ α : Type} [DecidableEq κ] (v : α) :
    ∀ (ks : List κ) (init : List (κ × α)) (k : κ),
      (k ∈ ks ∨ dictGet k init = some v) →
      dictGet k (ks.foldl (fun m q => dictSet q v m) init) = some v := by
  intro ks
  induction ks with
  | nil =>
    intro init k h
    rcases h with h | h
    · cases h
    · exact h
  | cons q rest ih =>
    intro init k h
    rw [List.foldl_cons]
    by_cases hq : q = k
    · exact ih _ _ (Or.inr (by rw [dictGet_dictSet, if_pos hq]))
    · rcases h with h | h
      · rcases List.mem_cons.mp h with h1 | h1
        · exact absurd h1.symm hq
        · exact ih _ _ (Or.inl h1)
      · exact ih _ _ (Or.inr (by rw [dictGet_dictSet, if_neg hq]; exact h))

theorem dictGet_bumpIndeg_other {k k' : String} (h : k ≠ k') :
    ∀ (m : List (String × Int)), dictGet k' (bumpIndeg k m) = dictGet k' m := by
  intro m
  induction m with
  | nil => simp [bumpIndeg, dictGet, h]
  | cons p rest ih =>
    by_cases hp : p.1 = k
    · simp [bumpIndeg, dictGet, hp, h]
    · simp [bumpIndeg, dictGet, hp, ih]

theorem childrenTargets (links : List Link) :
    ∀ (k c : String), c ∈ dictGetD k (buildChildren links) [] →
      ∃ l ∈ links, tgtN l = c := by
  have main : ∀ (ls : List Link) (init : List (String × List String)) (k c : String),
      c ∈ dictGetD k (ls.foldl (fun m l => dictPush (srcN l) (tgtN l) m) init) [] →
      c ∈ dictGetD k init [] ∨ ∃ l ∈ ls, tgtN l = c := by
    intro ls
    induction ls with
    | nil => intro init k c h; exact Or.inl h
    | cons l rest ih =>
      intro init k c h
      rw [List.foldl_cons] at h
      rcases ih _ k c h with h2 | ⟨l2, hl2, he⟩
      · unfold dictGetD at h2
        by_cases hk : srcN l = k
        · rw [hk, dictGet_dictPush_self] at h2
          simp only [Option.getD_some] at h2
          rcases List.mem_append.mp h2 with h3 | h3
          · exact Or.inl h3
          · refine Or.inr ⟨l, List.mem_cons_self l rest, ?_⟩
            have hc2 : c = tgtN l := by simpa using h3
            exact hc2.symm
        · rw [dictGet_dictPush_other _ _ hk] at h2
          exact Or.inl h2
      · exact Or.inr ⟨l2, List.mem_cons_of_mem l hl2, he⟩
  intro k c h
  rcases main links [] k c h with h2 | h2
  · cases h2
  · exact h2

/-- The result of one childStep when all three dict reads succeed and
the popped node has an integer level: decrement the in-degree, raise the
child level to max(current, level(nid)+1), enqueue on reaching zero. -/
theorem childStep_eq {nid c : String} {st : BfsState} {d v : Int} {cur : Option Int}
    (h1 : dictGet c st.indegree = some d)
    (h2 : dictGet nid st.levels = some (some v))
    (h3 : dictGet c st.levels = some cur) :
    childStep nid st c = .ok
      ⟨if d - 1 = 0 then st.queue ++ [c] else st.queue,
       dictSet c (d - 1) st.indegree,
       stepLevels c (v + 1) cur st.levels⟩ := by
  simp only [childStep, stepLevels, h1, h2, h3]

theorem childStep_ok_inv {nid c : String} {st st2 : BfsState}
    (h : childStep nid st c = .ok st2) :
    ∃ d v cur, dictGet c st.indegree = some d ∧ dictGet nid st.levels = some (some v) ∧
      dictGet c st.levels = some cur ∧
      st2 = ⟨if d - 1 = 0 then st.queue ++ [c] else st.queue,
             dictSet c (d - 1) st.indegree,
             stepLevels c (v + 1) cur st.levels⟩ := by
  cases h1 : dictGet c st.indegree with
  | none =>
    unfold childStep at h
    rw [h1] at h
    exact Except.noConfusion h
  | some d =>
    cases h2 : dictGet nid st.levels with
    | none =>
      unfold childStep at h
      rw [h1, h2] at h
      exact Except.noConfusion h
    | some o =>
      cases o with
      | none =>
        unfold childStep at h
        rw [h1, h2] at h
        exact Except.noConfusion h
      | some v =>
        cases h3 : dictGet c st.levels with
        | none =>
          unfold childStep at h
          rw [h1, h2, h3] at h
          exact Except.noConfusion h
        | some cur =>
          rw [childStep_eq h1 h2 h3] at h
          injection h with h4
          exact ⟨d, v, cur, rfl, rfl, rfl, h4.symm⟩

theorem childStep_levels {nid : String} {st st2 : BfsState} {c : String}
    (h : childStep nid st c = .ok st2) :
    st2.levels = st.levels ∨ ∃ v, st2.levels = dictSet c v st.levels := by
  obtain ⟨d, v, cur, _, _, _, h4⟩ := childStep_ok_inv h
  subst h4
  cases cur with
  | none => exact Or.inr ⟨some (v + 1), rfl⟩
  | some w =>
    simp only [stepLevels]
    by_cases hgt : v + 1 > w
    · rw [if_pos hgt]
      exact Or.inr ⟨some (v + 1), rfl⟩
    · rw [if_neg hgt]
      exact Or.inl rfl

theorem bfsLoop_cons (children : List (String × List String)) (fuel : Nat)
    {st : BfsState} {q : String} {rest : List String} (hq : st.queue = q :: rest) :
    bfsLoop children (fuel + 1) st =
      match (dictGetD q children []).foldlM (childStep q)
          ⟨rest, st.indegree, st.levels⟩ with
      | .error s => .error s
      | .ok st2 => bfsLoop children fuel st2 := by
  obtain ⟨queue, ind, lv⟩ := st
  have hq2 : queue = q :: rest := hq
  subst hq2
  rfl

theorem bfsLoop_preserves_untargeted (children : List (String × List String))
    (nid : String)
    (hchild : ∀ k c, c ∈ dictGetD k children [] → c ≠ nid) :
    ∀ (fuel : Nat) (st stF : BfsState),
      bfsLoop children fuel st = .ok stF →
      dictGet nid st.levels = some (some 0) →
      dictGet nid stF.levels = some (some 0) := by
  intro fuel
  induction fuel with
  | zero =>
    intro st stF h hP
    cases h
    exact hP
  | succ n ih =>
    intro st stF h hP
    cases hq : st.queue with
    | nil =>
      unfold bfsLoop at h
      rw [hq] at h
      cases h
      exact hP
    | cons q rest =>
      rw [bfsLoop_cons children n hq] at h
      cases hstep : (dictGetD q children []).foldlM (childStep q)
          ⟨rest, st.indegree, st.levels⟩ with
      | error e =>
        rw [hstep] at h
        exact Except.noConfusion h
      | ok st2 =>
        rw [hstep] at h
        refine ih st2 stF h ?_
        refine foldlM_invariant (fun s => dictGet nid s.levels = some (some 0)) _
          (dictGetD q children []) _ st2 ?_ hP hstep
        intro a c hc hPa r hr
        rcases childStep_levels hr with he | ⟨v, he⟩
        · rw [he]; exact hPa
        · rw [he, dictGet_dictSet, if_neg (hchild q c hc)]
          exact hPa

/-- C6: a node with no inbound field-level link is assigned level 0 by
the Level Assigner (its entry in the final levels mapping is 0): it has
in-degree 0, is seeded into the initial queue with level 0, and no
propagation step ever rewrites the level of a node that no link
targets. -/
theorem c6_no_inbound_gets_level_zero (nodes : List String) (links : List Link)
    (nid : String) (lv : List (String × Option Int))
    (hmem : nid ∈ nodes)
    (hnoin : ∀ l ∈ links, tgtN l ≠ nid)
    (h : computeLevelsMap nodes links = .ok lv) :
    dictGet nid lv = some (some 0) := by
  unfold computeLevelsMap at h
  cases hloop : bfsLoop (buildChildren links)
      ((initState nodes links).queue.length + nodes.length + links.length)
      (initState nodes links) with
  | error e =>
    rw [hloop] at h
    exact Except.noConfusion h
  | ok stF =>
    rw [hloop] at h
    injection h with h
    subst h
    have hind0 : dictGet nid (initIndegree nodes links) = some 0 := by
      unfold initIndegree
      refine foldl_invariant (fun m => dictGet nid m = some (0 : Int)) _ links _ ?_ ?_
      · intro m l hl hP
        rw [dictGet_bumpIndeg_other (hnoin l hl) m]
        exact hP
      · exact dictGet_foldl_dictSet_const (0 : Int) nodes [] nid (Or.inl hmem)
    have hq0 : nid ∈ (initState nodes links).queue := by
      show nid ∈ ((initIndegree nodes links).filter (fun p => p.2 = 0)).map Prod.fst
      exact List.mem_map.mpr ⟨(nid, 0),
        List.mem_filter.mpr ⟨dictGet_mem hind0, rfl⟩, rfl⟩
    have hlv0 : dictGet nid (initState nodes links).levels = some (some 0) :=
      dictGet_foldl_dictSet_const (some (0 : Int)) _ _ nid (Or.inl hq0)
    exact bfsLoop_preserves_untargeted (buildChildren links) nid
      (fun k c hc hcnid => by
        obtain ⟨l, hl, he⟩ := childrenTargets links k c hc
        exact hnoin l hl (hcnid ▸ he))
      _ _ _ hloop hlv0

theorem c6_witness :
    computeLevelsMap ["A", "B"] [mkLink "A" "x" "B" "x"] =
      .ok [("A", some 0), ("B", some 1)] ∧
    dictGet "A" [("A", some (0 : Int)), ("B", some 1)] = some (some 0) :=
  ⟨rfl,
    c6_no_inbound_gets_level_zero ["A", "B"] [mkLink "A" "x" "B" "x"] "A"
      [("A", some 0), ("B", some 1)] (by decide) (by decide) rfl⟩

/-! ## Claim C9: the visited-set traversal computes exactly reachability -/

theorem filter_length_mono {α : Type} (p q : α → Bool) :
    ∀ (l : List α), (∀ x ∈ l, p x = true → q x = true) →
      (l.filter p).length ≤ (l.filter q).length := by
  intro l
  induction l with
  | nil => intro _; exact Nat.le_refl 0
  | cons a rest ih =>
    intro h
    have hrest := ih (fun x hx => h x (List.mem_cons_of_mem a hx))
    by_cases hp : p a = true
    · rw [List.filter_cons, if_pos hp, List.filter_cons,
        if_pos (h a (List.mem_cons_self a rest) hp)]
      exact Nat.succ_le_succ hrest
    · rw [List.filter_cons, if_neg hp, List.filter_cons]
      split
      · exact Nat.le_trans hrest (Nat.le_succ _)
      · exact hrest

theorem filter_length_eq_all {α : Type} (p : α → Bool) :
    ∀ (l : List α), l.length ≤ (l.filter p).length → ∀ x ∈ l, p x = true := by
  intro l
  induction l with
  | nil => intro _ x hx; cases hx
  | cons a rest ih =>
    intro h x hx
    by_cases hp : p a = true
    · rw [List.filter_cons, if_pos hp] at h
      rcases List.mem_cons.mp hx with hx1 | hx1
      · rw [hx1]; exact hp
      · exact ih (Nat.le_of_succ_le_succ h) x hx1
    · rw [List.filter_cons, if_neg hp] at h
      have hle : (rest.filter p).length ≤ rest.length := List.length_filter_le p rest
      have : rest.length + 1 ≤ rest.length := Nat.le_trans h hle
      exact absurd this (Nat.not_succ_le_self rest.length)

theorem visCount_le (U vis : List String) : visCount U vis ≤ U.length :=
  List.length_filter_le _ U

theorem visCount_mono (U : List String) {vis vis2 : List String} (h : vis ⊆ vis2) :
    visCount U vis ≤ visCount U vis2 :=
  filter_length_mono _ _ U (fun x _ hx => by
    simp only [decide_eq_true_eq] at hx ⊢
    exact h hx)

theorem visCount_cons {U : List String} (hU : U.Nodup) {key : String} (vis : List String)
    (hkeyU : key ∈ U) (hkey : key ∉ vis) :
    visCount U (key :: vis) = visCount U vis + 1 := by
  induction U with
  | nil => cases hkeyU
  | cons a rest ih =>
    rw [List.nodup_cons] at hU
    by_cases ha : a = key
    · subst ha
      have hrest : ∀ u ∈ rest, (decide (u ∈ a :: vis)) = (decide (u ∈ vis)) := by
        intro u hu
        have : u ≠ a := fun hc => hU.1 (hc ▸ hu)
        simp [List.mem_cons, this]
      unfold visCount
      rw [List.filter_cons, List.filter_cons,
        if_pos (by simp), if_neg (by simpa using hkey),
        List.filter_congr hrest]
      simp [Nat.add_comm]
    · have hkeyrest : key ∈ rest := by
        rcases List.mem_cons.mp hkeyU with h1 | h1
        · exact absurd h1.symm ha
        · exact h1
      have hane : (decide (a ∈ key :: vis)) = (decide (a ∈ vis)) := by
        simp [List.mem_cons, fun hc => ha hc]
      unfold visCount
      rw [List.filter_cons, List.filter_cons, hane]
      have ihr := ih hU.2 hkeyrest
      unfold visCount at ihr
      split
      · simp only [List.length_cons, ihr]
      · exact ihr

theorem traverseF_mono (m : List (String × List String)) :
    ∀ (fuel : Nat) (vis : List String) (key : String),
      vis ⊆ traverseF m fuel vis key := by
  intro fuel
  induction fuel with
  | zero => intro vis key; exact fun _ h => h
  | succ n ih =>
    intro vis key
    unfold traverseF
    split
    · exact fun _ h => h
    · have hstep : ∀ (acc : List String) (b : String), acc ⊆ traverseF m n acc b :=
        fun acc b => ih acc b
      have hfold : ∀ (ns : List String) (acc : List String),
          acc ⊆ ns.foldl (traverseF m n) acc := by
        intro ns
        induction ns with
        | nil => intro acc; exact fun _ h => h
        | cons c rest ihf =>
          intro acc
          rw [List.foldl_cons]
          exact fun x hx => ihf (traverseF m n acc c) (hstep acc c hx)
      exact fun x hx => hfold _ (key :: vis) (List.mem_cons_of_mem key hx)

theorem traverseF_fold_mono (m : List (String × List String)) (fuel : Nat) :
    ∀ (ns : List String) (acc : List String),
      acc ⊆ ns.foldl (traverseF m fuel) acc := by
  intro ns
  induction ns with
  | nil => intro acc; exact fun _ h => h
  | cons c rest ihf =>
    intro acc
    rw [List.foldl_cons]
    exact fun x hx => ihf (traverseF m fuel acc c) (traverseF_mono m fuel acc c hx)

theorem traverseF_sound (m : List (String × List String)) :
    ∀ (fuel : Nat) (vis : List String) (key x : String),
      x ∈ traverseF m fuel vis key →
      x ∈ vis ∨ Relation.ReflTransGen (stepRel m) key x := by
  intro fuel
  induction fuel with
  | zero => intro vis key x h; exact Or.inl h
  | succ n ih =>
    intro vis key x h
    unfold traverseF at h
    split at h
    · exact Or.inl h
    · have hfold : ∀ (ns : List String) (acc : List String) (x : String),
          (∀ c ∈ ns, stepRel m key c) →
          x ∈ ns.foldl (traverseF m n) acc →
          x ∈ acc ∨ Relation.ReflTransGen (stepRel m) key x := by
        intro ns
        induction ns with
        | nil => intro acc x _ hx; exact Or.inl hx
        | cons c rest ihf =>
          intro acc x hstep hx
          rw [List.foldl_cons] at hx
          rcases ihf (traverseF m n acc c) x
              (fun c2 h2 => hstep c2 (List.mem_cons_of_mem c h2)) hx with h2 | h2
          · rcases ih acc c x h2 with h3 | h3
            · exact Or.inl h3
            · exact Or.inr (Relation.ReflTransGen.head
                (hstep c (List.mem_cons_self c rest)) h3)
          · exact Or.inr h2
      rcases hfold _ (key :: vis) x (fun c hc => hc) h with h2 | h2
      · rcases List.mem_cons.mp h2 with h3 | h3
        · exact Or.inr (h3 ▸ Relation.ReflTransGen.refl)
        · exact Or.inl h3
      · exact Or.inr h2

theorem traverseF_closed (m : List (String × List String)) (U : List String)
    (hU : U.Nodup) (hvals : ∀ k c, c ∈ dictGetD k m [] → c ∈ U) :
    ∀ (fuel : Nat) (vis : List String) (key : String),
      key ∈ U → U.length ≤ fuel + visCount U vis →
      vis ⊆ traverseF m fuel vis key ∧ key ∈ traverseF m fuel vis key ∧
      ∀ x ∈ traverseF m fuel vis key, x ∈ vis ∨
        ∀ y ∈ dictGetD x m [], y ∈ traverseF m fuel vis key := by
  intro fuel
  induction fuel with
  | zero =>
    intro vis key hkeyU hcount
    rw [Nat.zero_add] at hcount
    have hall : ∀ u ∈ U, (decide (u ∈ vis)) = true := filter_length_eq_all _ U hcount
    have hkey : key ∈ vis := by simpa using hall key hkeyU
    exact ⟨fun _ h => h, hkey, fun x hx => Or.inl hx⟩
  | succ n ih =>
    intro vis key hkeyU hcount
    by_cases hkey : key ∈ vis
    · rw [show traverseF m (n + 1) vis key = vis by unfold traverseF; rw [if_pos hkey]]
      exact ⟨fun _ h => h, hkey, fun x hx => Or.inl hx⟩
    · have heq : traverseF m (n + 1) vis key =
          (dictGetD key m []).foldl (traverseF m n) (key :: vis) := by
        unfold traverseF
        rw [if_neg hkey]
      have hcount2 : U.length ≤ n + visCount U (key :: vis) := by
        rw [visCount_cons hU vis hkeyU hkey]
        omega
      have hfold : ∀ (ns : List String) (acc : List String),
          (∀ c ∈ ns, c ∈ U) → U.length ≤ n + visCount U acc →
          acc ⊆ ns.foldl (traverseF m n) acc ∧
          (∀ c ∈ ns, c ∈ ns.foldl (traverseF m n) acc) ∧
          ∀ x ∈ ns.foldl (traverseF m n) acc, x ∈ acc ∨
            ∀ y ∈ dictGetD x m [], y ∈ ns.foldl (traverseF m n) acc := by
        intro ns
        induction ns with
        | nil =>
          intro acc _ _
          exact ⟨fun _ h => h, fun c hc => absurd hc (List.not_mem_nil c),
            fun x hx => Or.inl hx⟩
        | cons c rest ihf =>
          intro acc hns hacc
          obtain ⟨hm1, hn1, hc1⟩ := ih acc c (hns c (List.mem_cons_self c rest)) hacc
          have hacc2 : U.length ≤ n + visCount U (traverseF m n acc c) :=
            Nat.le_trans hacc (Nat.add_le_add_left (visCount_mono U hm1) n)
          obtain ⟨hm2, hn2, hc2⟩ := ihf (traverseF m n acc c)
            (fun c2 h2 => hns c2 (List.mem_cons_of_mem c h2)) hacc2
          rw [List.foldl_cons]
          refine ⟨fun x hx => hm2 (hm1 hx), ?_, ?_⟩
          · intro c2 hc2mem
            rcases List.mem_cons.mp hc2mem with h3 | h3
            · exact h3 ▸ hm2 hn1
            · exact hn2 c2 h3
          · intro x hx
            rcases hc2 x hx with h3 | h3
            · rcases hc1 x h3 with h4 | h4
              · exact Or.inl h4
              · exact Or.inr (fun y hy => hm2 (h4 y hy))
            · exact Or.inr h3
      obtain ⟨hm, hns, hcl⟩ := hfold (dictGetD key m []) (key :: vis)
        (fun c hc => hvals key c hc) hcount2
      rw [heq]
      refine ⟨fun x hx => hm (List.mem_cons_of_mem key hx),
        hm (List.mem_cons_self key vis), ?_⟩
      intro x hx
      rcases hcl x hx with h3 | h3
      · rcases List.mem_cons.mp h3 with h4 | h4
        · exact Or.inr (fun y hy => hns y (h4 ▸ hy))
        · exact Or.inl h4
      · exact Or.inr h3

theorem mem_keyUniverse_self (m : List (String × List String)) (key : String) :
    key ∈ keyUniverse m key :=
  List.mem_dedup.mpr (List.mem_cons_self key _)

theorem mem_keyUniverse_vals (m : List (String × List String)) (key : String) :
    ∀ k c, c ∈ dictGetD k m [] → c ∈ keyUniverse m key := by
  intro k c h
  unfold dictGetD at h
  cases hg : dictGet k m with
  | none => rw [hg] at h; cases h
  | some l =>
    rw [hg] at h
    simp only [Option.getD_some] at h
    refine List.mem_dedup.mpr (List.mem_cons_of_mem key ?_)
    exact List.mem_flatMap.mpr ⟨(k, l), dictGet_mem hg, List.mem_cons_of_mem k h⟩

/-- Both inclusions between the visited set of `traverse` and
reachability in the adjacency map. -/
theorem traverse_reachable (m : List (String × List String)) (key x : String) :
    x ∈ traverse m key ↔ Relation.ReflTransGen (stepRel m) key x := by
  constructor
  · intro h
    rcases traverseF_sound m _ [] key x h with h2 | h2
    · cases h2
    · exact h2
  · intro h
    obtain ⟨_, hkeymem, hclosed⟩ := traverseF_closed m (keyUniverse m key)
      (List.nodup_dedup _) (mem_keyUniverse_vals m key)
      (keyUniverse m key).length [] key (mem_keyUniverse_self m key)
      (by rw [visCount]; simp)
    induction h with
    | refl => exact hkeymem
    | tail hab hbc ihx =>
      rcases hclosed _ ihx with h3 | h3
      · cases h3
      · exact h3 _ hbc

/-- C9: the visited-set-guarded depth-first walk of the rendered
document terminates on every finite link set, cyclic ones included (it
is a total function whose fuel provably suffices), and computes exactly
the set of keys reachable from the selected key in the forward
adjacency index (descendants) and in the backward adjacency index
(ancestors) respectively. -/
theorem c9_traverse_reachability (links : List Link) (key x : String) :
    (x ∈ traverse (buildFwd links) key ↔
      Relation.ReflTransGen (stepRel (buildFwd links)) key x) ∧
    (x ∈ traverse (buildBwd links) key ↔
      Relation.ReflTransGen (stepRel (buildBwd links)) key x) :=
  ⟨traverse_reachable (buildFwd links) key x,
   traverse_reachable (buildBwd links) key x⟩

/-! ## Claim C5: counting lemmas for the propagation invariant -/

theorem filter_disjoint_le {α : Type} (p q : α → Bool) :
    ∀ (l : List α), (∀ x ∈ l, ¬(p x = true ∧ q x = true)) →
      (l.filter p).length + (l.filter q).length ≤ l.length := by
  intro l
  induction l with
  | nil => intro _; exact Nat.le_refl 0
  | cons a rest ih =>
    intro h
    have hrest := ih (fun x hx => h x (List.mem_cons_of_mem a hx))
    have hne := h a (List.mem_cons_self a rest)
    rw [List.filter_cons, List.filter_cons]
    by_cases hp : p a = true
    · have hq : ¬ q a = true := fun hq => hne ⟨hp, hq⟩
      rw [if_pos hp, if_neg hq]
      simp only [List.length_cons]
      omega
    · rw [if_neg hp]
      by_cases hq : q a = true
      · rw [if_pos hq]
        simp only [List.length_cons]
        omega
      · rw [if_neg hq]
        simp only [List.length_cons]
        omega

theorem filter_or_length {α : Type} (p q : α → Bool) :
    ∀ (l : List α), (∀ x ∈ l, ¬(p x = true ∧ q x = true)) →
      (l.filter (fun x => p x || q x)).length =
        (l.filter p).length + (l.filter q).length := by
  intro l
  induction l with
  | nil => intro _; rfl
  | cons a rest ih =>
    intro h
    have hrest := ih (fun x hx => h x (List.mem_cons_of_mem a hx))
    have hne := h a (List.mem_cons_self a rest)
    rw [List.filter_cons, List.filter_cons, List.filter_cons]
    by_cases hp : p a = true
    · have hq : ¬ q a = true := fun hq => hne ⟨hp, hq⟩
      rw [if_pos (by rw [hp]; rfl), if_pos hp, if_neg hq]
      simp only [List.length_cons]
      omega
    · by_cases hq : q a = true
      · rw [if_pos (by rw [hq]; simp), if_neg hp, if_pos hq]
        simp only [List.length_cons]
        omega
      · rw [if_neg (by simp [hp, hq]), if_neg hp, if_neg hq]
        exact hrest

theorem intoCount_nil (c : String) : intoCount [] c = 0 := rfl

theorem intoCount_append (a b : List Link) (c : String) :
    intoCount (a ++ b) c = intoCount a c + intoCount b c := by
  unfold intoCount intoLinks
  rw [List.filter_append, List.length_append]

theorem intoCount_single_self {l : Link} {c : String} (h : tgtN l = c) :
    intoCount [l] c = 1 := by
  unfold intoCount intoLinks
  simp [h]

theorem intoCount_single_other {l : Link} {c : String} (h : tgtN l ≠ c) :
    intoCount [l] c = 0 := by
  unfold intoCount intoLinks
  simp [h]

theorem intoCount_fromLinks_comm (links : List Link) (nid c : String) :
    intoCount (fromLinks links nid) c =
      ((intoLinks links c).filter (fun l => srcN l = nid)).length := by
  unfold intoCount intoLinks fromLinks
  rw [List.filter_filter, List.filter_filter]
  congr 1
  exact List.filter_congr (fun l _ => by rw [Bool.and_comm])

theorem doneCount_nil (links : List Link) (c : String) : doneCount links [] c = 0 := by
  unfold doneCount
  rw [List.filter_eq_nil_iff.mpr (fun l _ => by simp)]
  rfl

theorem doneCount_le (links : List Link) (P : List String) (c : String) :
    doneCount links P c ≤ intoCount links c :=
  List.length_filter_le _ _

theorem doneCount_fromLinks_le (links : List Link) {P : List String} {nid : String}
    (h : nid ∉ P) (c : String) :
    doneCount links P c + intoCount (fromLinks links nid) c ≤ intoCount links c := by
  rw [intoCount_fromLinks_comm]
  exact filter_disjoint_le _ _ (intoLinks links c)
    (fun l _ hc => h (by
      have h1 : srcN l ∈ P := by simpa using hc.1
      have h2 : srcN l = nid := by simpa using hc.2
      exact h2 ▸ h1))

theorem doneCount_append_single (links : List Link) {P : List String} {nid : String}
    (h : nid ∉ P) (c : String) :
    doneCount links (P ++ [nid]) c =
      doneCount links P c + intoCount (fromLinks links nid) c := by
  rw [intoCount_fromLinks_comm]
  unfold doneCount
  rw [show ((intoLinks links c).filter (fun l => srcN l ∈ P ++ [nid])) =
      ((intoLinks links c).filter (fun l =>
        (decide (srcN l ∈ P)) || (decide (srcN l = nid)))) from
    List.filter_congr (fun l _ => by simp [List.mem_append])]
  exact filter_or_length _ _ (intoLinks links c)
    (fun l _ hc => h (by
      have h1 : srcN l ∈ P := by simpa using hc.1
      have h2 : srcN l = nid := by simpa using hc.2
      exact h2 ▸ h1))

theorem children_eq (links : List Link) (k : String) :
    dictGetD k (buildChildren links) [] = (fromLinks links k).map tgtN := by
  have main : ∀ (ls : List Link) (init : List (String × List String)),
      dictGetD k (ls.foldl (fun m l => dictPush (srcN l) (tgtN l) m) init) [] =
        dictGetD k init [] ++ (ls.filter (fun l => srcN l = k)).map tgtN := by
    intro ls
    induction ls with
    | nil => intro init; simp
    | cons l rest ih =>
      intro init
      rw [List.foldl_cons, ih, List.filter_cons]
      by_cases hk : srcN l = k
      · rw [if_pos (by simp [hk])]
        unfold dictGetD
        rw [hk, dictGet_dictPush_self]
        simp
      · rw [if_neg (by simp [hk])]
        unfold dictGetD
        rw [dictGet_dictPush_other _ _ hk]

  rw [show buildChildren links =
      links.foldl (fun m l => dictPush (srcN l) (tgtN l) m) [] from rfl, main]
  rfl

/-! ## Claim C5: the initial state satisfies the invariant -/

theorem dictSet_fresh {κ α : Type} [DecidableEq κ] {k : κ} (v : α) :
    ∀ {m : List (κ × α)}, k ∉ m.map Prod.fst → dictSet k v m = m ++ [(k, v)] := by
  intro m
  induction m with
  | nil => intro _; rfl
  | cons p rest ih =>
    intro h
    simp only [List.map_cons, List.mem_cons] at h
    push_neg at h
    rw [show dictSet k v (p :: rest) =
        if p.1 = k then (k, v) :: rest else p :: dictSet k v rest from rfl,
      if_neg (fun hc => h.1 hc.symm), ih h.2]
    rfl

theorem foldl_dictSet_fresh {κ α : Type} [DecidableEq κ] (v : α) :
    ∀ (ks : List κ) (acc : List (κ × α)), ks.Nodup →
      (∀ k ∈ ks, k ∉ acc.map Prod.fst) →
      ks.foldl (fun m q => dictSet q v m) acc = acc ++ ks.map (fun k => (k, v)) := by
  intro ks
  induction ks with
  | nil => intro acc _ _; simp
  | cons k rest ih =>
    intro acc hnd hfresh
    rw [List.nodup_cons] at hnd
    rw [List.foldl_cons, dictSet_fresh v (hfresh k (List.mem_cons_self k rest)),
      ih (acc ++ [(k, v)]) hnd.2 ?_]
    · simp
    · intro k2 hk2
      simp only [List.map_append, List.mem_append]
      push_neg
      exact ⟨hfresh k2 (List.mem_cons_of_mem k hk2),
        by
          simp only [List.map_cons, List.map_nil, List.mem_singleton]
          exact fun hc => hnd.1 (hc ▸ hk2)⟩

theorem bump_map {g : String → Int} {tgt : String} :
    ∀ {nodes : List String}, nodes.Nodup → tgt ∈ nodes →
      bumpIndeg tgt (nodes.map (fun n => (n, g n))) =
        nodes.map (fun n => (n, if n = tgt then g n + 1 else g n)) := by
  intro nodes
  induction nodes with
  | nil => intro _ h; cases h
  | cons a rest ih =>
    intro hnd hmem
    rw [List.nodup_cons] at hnd
    simp only [List.map_cons]
    by_cases ha : a = tgt
    · rw [show bumpIndeg tgt ((a, g a) :: rest.map (fun n => (n, g n))) =
          if a = tgt then (a, g a + 1) :: rest.map (fun n => (n, g n))
          else (a, g a) :: bumpIndeg tgt (rest.map (fun n => (n, g n))) from rfl,
        if_pos ha, if_pos ha]
      congr 1
      refine (List.map_congr_left ?_).symm
      intro n hn
      rw [if_neg (fun hc => hnd.1 (by rw [ha, ← hc]; exact hn))]
    · rw [show bumpIndeg tgt ((a, g a) :: rest.map (fun n => (n, g n))) =
          if a = tgt then (a, g a + 1) :: rest.map (fun n => (n, g n))
          else (a, g a) :: bumpIndeg tgt (rest.map (fun n => (n, g n))) from rfl,
        if_neg ha, if_neg ha]
      have hmem2 : tgt ∈ rest := by
        rcases List.mem_cons.mp hmem with h1 | h1
        · exact absurd h1.symm ha
        · exact h1
      rw [ih hnd.2 hmem2]

theorem bumps_map {nodes : List String} (hnd : nodes.Nodup) :
    ∀ (ls : List Link) (g : String → Int), (∀ l ∈ ls, tgtN l ∈ nodes) →
      ls.foldl (fun m l => bumpIndeg (tgtN l) m) (nodes.map (fun n => (n, g n))) =
        nodes.map (fun n => (n, g n + intoCount ls n)) := by
  intro ls
  induction ls with
  | nil =>
    intro g _
    refine List.map_congr_left ?_
    intro n _
    rw [intoCount_nil]
    simp
  | cons l rest ih =>
    intro g hl
    rw [List.foldl_cons, bump_map hnd (hl l (List.mem_cons_self l rest)),
      ih (fun n => if n = tgtN l then g n + 1 else g n)
        (fun l2 h2 => hl l2 (List.mem_cons_of_mem l h2))]
    refine List.map_congr_left ?_
    intro n _
    have : intoCount (l :: rest) n = intoCount rest n + (if tgtN l = n then 1 else 0) := by
      unfold intoCount intoLinks
      rw [List.filter_cons]
      split
      · rename_i hc
        rw [if_pos (by simpa using hc)]
        simp [Nat.add_comm]
      · rename_i hc
        rw [if_neg (by simpa using hc)]
        simp
    rw [this]
    by_cases hn : n = tgtN l
    · rw [if_pos hn, if_pos (hn ▸ rfl)]
      push_cast
      ring_nf
    · rw [if_neg hn, if_neg (fun hc => hn hc.symm)]
      push_cast
      ring_nf

theorem initIndegree_eq {nodes : List String} {links : List Link} (hnd : nodes.Nodup)
    (hEnds : ∀ l ∈ links, tgtN l ∈ nodes) :
    initIndegree nodes links = nodes.map (fun n => (n, (intoCount links n : Int))) := by
  unfold initIndegree
  rw [show nodes.foldl (fun m n => dictSet n (0 : Int) m) [] =
      [] ++ nodes.map (fun k => (k, (0 : Int))) from
    foldl_dictSet_fresh 0 nodes [] hnd (by simp), List.nil_append,
    bumps_map hnd links (fun _ => (0 : Int)) hEnds]
  refine List.map_congr_left ?_
  intro n _
  rw [Int.zero_add]

theorem dictGet_map_self {α : Type} (f : String → α) :
    ∀ {nodes : List String} {c : String}, c ∈ nodes →
      dictGet c (nodes.map (fun n => (n, f n))) = some (f c) := by
  intro nodes
  induction nodes with
  | nil => intro c h; cases h
  | cons a rest ih =>
    intro c h
    by_cases ha : a = c
    · subst ha
      simp [dictGet]
    · rw [List.map_cons, show dictGet c ((a, f a) :: rest.map (fun n => (n, f n))) =
        if a = c then some (f a) else dictGet c (rest.map (fun n => (n, f n))) from rfl,
        if_neg ha]
      refine ih ?_
      rcases List.mem_cons.mp h with h1 | h1
      · exact absurd h1.symm ha
      · exact h1

theorem initQueue_eq {nodes : List String} {links : List Link} (hnd : nodes.Nodup)
    (hEnds : ∀ l ∈ links, tgtN l ∈ nodes) :
    (initState nodes links).queue =
      nodes.filter (fun n => (intoCount links n : Int) = 0) := by
  show ((initIndegree nodes links).filter (fun p => p.2 = 0)).map Prod.fst = _
  rw [initIndegree_eq hnd hEnds, List.filter_map, List.map_map]
  rw [show (nodes.filter ((fun p : String × Int => decide (p.2 = 0)) ∘
      (fun n => (n, (intoCount links n : Int))))) =
    nodes.filter (fun n => (intoCount links n : Int) = 0) from rfl]
  rw [show Prod.fst ∘ (fun n : String => (n, (intoCount links n : Int))) = id from rfl]
  exact List.map_id _

theorem kinv_init {nodes : List String} {links : List Link} (hnd : nodes.Nodup)
    (hEnds : ∀ l ∈ links, srcN l ∈ nodes ∧ tgtN l ∈ nodes) :
    KInv nodes links [] (initState nodes links) := by
  have hEt : ∀ l ∈ links, tgtN l ∈ nodes := fun l hl => (hEnds l hl).2
  have hq := initQueue_eq hnd hEt
  have hqmem : ∀ u ∈ (initState nodes links).queue,
      u ∈ nodes ∧ intoCount links u = 0 := by
    intro u hu
    rw [hq] at hu
    obtain ⟨h1, h2⟩ := List.mem_filter.mp hu
    refine ⟨h1, ?_⟩
    have : (intoCount links u : Int) = 0 := by simpa using h2
    exact_mod_cast this
  have hlv0 : ∀ c ∈ nodes,
      dictGet c (nodes.foldl (fun m n => dictSet n (none : Option Int) m) []) =
        some none := fun c hc => dictGet_foldl_dictSet_const none nodes [] c (Or.inl hc)
  refine ⟨?_, ?_, ?_, ?_, ?_, ?_, ?_, ?_⟩
  · rw [List.nil_append, hq]
    exact hnd.filter _
  · intro x hx
    rw [List.nil_append] at hx
    exact (hqmem x hx).1
  · intro c hc
    show dictGet c (initIndegree nodes links) = _
    rw [initIndegree_eq hnd hEt, dictGet_map_self _ hc, doneCount_nil]
    simp
  · intro c hc
    show ∃ v, dictGet c ((initState nodes links).queue.foldl
      (fun m n => dictSet n (some (0 : Int)) m)
      (nodes.foldl (fun m n => dictSet n (none : Option Int) m) [])) = some v
    by_cases hcq : c ∈ (initState nodes links).queue
    · exact ⟨some 0, dictGet_foldl_dictSet_const _ _ _ c (Or.inl hcq)⟩
    · refine ⟨none, ?_⟩
      refine foldl_invariant (fun m => dictGet c m = some none) _ _ _ ?_ (hlv0 c hc)
      intro a b hb hP
      rw [dictGet_dictSet, if_neg (fun hc2 => hcq (by rw [← hc2]; exact hb))]
      exact hP
  · intro u hu
    rw [List.nil_append] at hu
    exact ⟨0, dictGet_foldl_dictSet_const _ _ _ u (Or.inl hu)⟩
  · intro l _ h
    cases h
  · intro u hu
    rw [List.nil_append] at hu
    rw [doneCount_nil, (hqmem u hu).2]
  · intro c hc hdc
    rw [List.nil_append, hq]
    rw [doneCount_nil] at hdc
    refine List.mem_filter.mpr ⟨hc, ?_⟩
    simp [← hdc]

/-! ## Claim C5: one child step preserves the invariant -/

theorem stepLevels_other {c u : String} (h : u ≠ c) (lvl : Int) (cur : Option Int)
    (levels : List (String × Option Int)) :
    dictGet u (stepLevels c lvl cur levels) = dictGet u levels := by
  cases cur with
  | none =>
    show dictGet u (dictSet c (some lvl) levels) = _
    rw [dictGet_dictSet, if_neg (fun hc => h hc.symm)]
  | some w =>
    show dictGet u (if lvl > w then dictSet c (some lvl) levels else levels) = _
    split
    · rw [dictGet_dictSet, if_neg (fun hc => h hc.symm)]
    · rfl

theorem stepLevels_self (c : String) (lvl : Int) (cur : Option Int)
    (levels : List (String × Option Int)) (hcur : dictGet c levels = some cur) :
    ∃ vc : Int, dictGet c (stepLevels c lvl cur levels) = some (some vc) ∧
      lvl ≤ vc ∧ ∀ w, cur = some w → w ≤ vc := by
  cases cur with
  | none =>
    refine ⟨lvl, ?_, Int.le_refl lvl, fun w hw => by cases hw⟩
    show dictGet c (dictSet c (some lvl) levels) = _
    rw [dictGet_dictSet, if_pos rfl]
  | some w =>
    show ∃ vc : Int, dictGet c (if lvl > w then dictSet c (some lvl) levels
        else levels) = some (some vc) ∧ lvl ≤ vc ∧ ∀ w2, some w = some w2 → w2 ≤ vc
    by_cases hgt : lvl > w
    · rw [if_pos hgt]
      refine ⟨lvl, ?_, Int.le_refl lvl, fun w2 hw2 => by cases hw2; omega⟩
      rw [dictGet_dictSet, if_pos rfl]
    · rw [if_neg hgt]
      exact ⟨w, hcur, by omega, fun w2 hw2 => by cases hw2; exact Int.le_refl w⟩

theorem childStep_finv {nodes : List String} {links : List Link}
    (hEnds : ∀ l ∈ links, srcN l ∈ nodes ∧ tgtN l ∈ nodes)
    {P : List String} {nid : String} {dn td : List Link} {l : Link} {st : BfsState}
    (hF : FInv nodes links P nid dn (l :: td) st) :
    ∃ st2, childStep nid st (tgtN l) = .ok st2 ∧
      FInv nodes links P nid (dn ++ [l]) td st2 := by
  have hlC : l ∈ fromLinks links nid := by
    rw [hF.split]
    exact List.mem_append.mpr (Or.inr (List.mem_cons_self l td))
  have hlmem : l ∈ links := (List.mem_filter.mp hlC).1
  have hlsrc : srcN l = nid := by simpa using (List.mem_filter.mp hlC).2
  have hcN : tgtN l ∈ nodes := (hEnds l hlmem).2
  have hnidmem : nid ∈ P ++ nid :: st.queue :=
    List.mem_append.mpr (Or.inr (List.mem_cons_self nid st.queue))
  have hnidP : nid ∉ P := by
    intro hc
    obtain ⟨_, _, hdisj⟩ := List.nodup_append.mp hF.nodupPQ
    exact hdisj hc (List.mem_cons_self nid st.queue)
  have hsplitCount : intoCount (fromLinks links nid) (tgtN l) =
      intoCount dn (tgtN l) + intoCount (l :: td) (tgtN l) := by
    rw [hF.split, intoCount_append]
  have hheadCount : intoCount (l :: td) (tgtN l) = intoCount td (tgtN l) + 1 := by
    unfold intoCount intoLinks
    rw [List.filter_cons, if_pos (by simp)]
    simp [Nat.add_comm]
  have hbound := doneCount_fromLinks_le links hnidP (tgtN l)
  have hcfresh : tgtN l ∉ P ++ nid :: st.queue := by
    intro hcmem
    have hres := hF.resolved _ hcmem
    omega
  have hcne : ∀ u, u ∈ P ++ nid :: st.queue → u ≠ tgtN l :=
    fun u hu hc => hcfresh (hc ▸ hu)
  have h1 := hF.ind (tgtN l) hcN
  obtain ⟨v, hv⟩ := hF.lvInt nid hnidmem
  obtain ⟨cur, hcur⟩ := hF.lvNodes (tgtN l) hcN
  have hstep := childStep_eq h1 hv hcur
  obtain ⟨vc, hvc, hvcge, hvcmax⟩ :=
    stepLevels_self (tgtN l) (v + 1) cur st.levels hcur
  have hlv_other : ∀ u, u ≠ tgtN l →
      dictGet u (stepLevels (tgtN l) (v + 1) cur st.levels) = dictGet u st.levels :=
    fun u hu => stepLevels_other hu _ _ _
  have hcountc : intoCount (dn ++ [l]) (tgtN l) = intoCount dn (tgtN l) + 1 := by
    rw [intoCount_append, intoCount_single_self rfl]
  have hcounto : ∀ u, u ≠ tgtN l → intoCount (dn ++ [l]) u = intoCount dn u := by
    intro u hu
    rw [intoCount_append, intoCount_single_other (fun hc => hu hc.symm)]
    rfl
  have hedge_pres : ∀ l2 ∈ links, srcN l2 ≠ tgtN l →
      (∃ vu vc2 : Int, dictGet (srcN l2) st.levels = some (some vu) ∧
        dictGet (tgtN l2) st.levels = some (some vc2) ∧ vu < vc2) →
      ∃ vu vc2 : Int,
        dictGet (srcN l2) (stepLevels (tgtN l) (v + 1) cur st.levels) = some (some vu) ∧
        dictGet (tgtN l2) (stepLevels (tgtN l) (v + 1) cur st.levels) = some (some vc2) ∧
        vu < vc2 := by
    intro l2 _ hsrc ⟨vu, vc2, hu, hc2, hlt⟩
    by_cases htgt : tgtN l2 = tgtN l
    · rw [htgt] at hc2
      rw [hcur] at hc2
      have hcureq : cur = some vc2 := Option.some_inj.mp hc2
      refine ⟨vu, vc, ?_, ?_, ?_⟩
      · rw [hlv_other _ hsrc]
        exact hu
      · rw [htgt]
        exact hvc
      · exact Int.lt_of_lt_of_le hlt (hvcmax vc2 hcureq)
    · exact ⟨vu, vc2, by rw [hlv_other _ hsrc]; exact hu,
        by rw [hlv_other _ htgt]; exact hc2, hlt⟩
  refine ⟨_, hstep, ?_⟩
  have hd_iff : ((intoCount links (tgtN l) : Int) -
        (doneCount links P (tgtN l) + intoCount dn (tgtN l)) - 1 = 0) ↔
      doneCount links P (tgtN l) + intoCount (dn ++ [l]) (tgtN l) =
        intoCount links (tgtN l) := by
    rw [hcountc]
    omega
  constructor
  case split =>
    rw [hF.split, List.append_cons]
  case nodupPQ =>
    show (P ++ nid :: (if _ then st.queue ++ [tgtN l] else st.queue)).Nodup
    split
    · rw [show P ++ nid :: (st.queue ++ [tgtN l]) =
          (P ++ nid :: st.queue) ++ [tgtN l] by simp]
      refine List.nodup_append.mpr ⟨hF.nodupPQ, List.nodup_singleton _, ?_⟩
      intro a ha hamem
      rw [List.mem_singleton] at hamem
      exact hcfresh (hamem ▸ ha)
    · exact hF.nodupPQ
  case subPQ =>
    intro x hx
    show x ∈ nodes
    rcases List.mem_append.mp hx with hx | hx
    · exact hF.subPQ x (List.mem_append.mpr (Or.inl hx))
    · rcases List.mem_cons.mp hx with hx | hx
      · exact hF.subPQ x (List.mem_append.mpr (Or.inr (hx ▸ List.mem_cons_self nid _)))
      · revert hx
        show x ∈ (if _ then st.queue ++ [tgtN l] else st.queue) → _
        split
        · intro hx
          rcases List.mem_append.mp hx with hx | hx
          · exact hF.subPQ x
              (List.mem_append.mpr (Or.inr (List.mem_cons_of_mem nid hx)))
          · rw [List.mem_singleton] at hx
            exact hx ▸ hcN
        · intro hx
          exact hF.subPQ x
            (List.mem_append.mpr (Or.inr (List.mem_cons_of_mem nid hx)))
  case ind =>
    intro c2 hc2
    show dictGet c2 (dictSet (tgtN l) _ st.indegree) = _
    rw [dictGet_dictSet]
    by_cases hc2t : tgtN l = c2
    · rw [if_pos hc2t, ← hc2t, hcountc]
      congr 1
      push_cast
      ring
    · rw [if_neg hc2t, hF.ind c2 hc2, hcounto c2 (fun hc => hc2t hc.symm)]
  case lvNodes =>
    intro c2 hc2
    by_cases hc2t : c2 = tgtN l
    · exact ⟨some vc, hc2t ▸ hvc⟩
    · obtain ⟨w, hw⟩ := hF.lvNodes c2 hc2
      exact ⟨w, by rw [show dictGet c2 _ = _ from hlv_other c2 hc2t]; exact hw⟩
  case lvInt =>
    intro u hu
    rcases List.mem_append.mp hu with hx | hx
    · obtain ⟨w, hw⟩ := hF.lvInt u (List.mem_append.mpr (Or.inl hx))
      exact ⟨w, by
        rw [show dictGet u _ = _ from
          hlv_other u (hcne u (List.mem_append.mpr (Or.inl hx)))]
        exact hw⟩
    · rcases List.mem_cons.mp hx with hx | hx
      · obtain ⟨w, hw⟩ := hF.lvInt nid hnidmem
        exact ⟨w, by
          rw [hx, show dictGet nid _ = _ from hlv_other nid (hcne nid hnidmem)]
          exact hw⟩
      · revert hx
        show u ∈ (if _ then st.queue ++ [tgtN l] else st.queue) → _
        split
        · intro hx
          rcases List.mem_append.mp hx with hx | hx
          · have hmem : u ∈ P ++ nid :: st.queue :=
              List.mem_append.mpr (Or.inr (List.mem_cons_of_mem nid hx))
            obtain ⟨w, hw⟩ := hF.lvInt u hmem
            exact ⟨w, by rw [show dictGet u _ = _ from hlv_other u (hcne u hmem)]; exact hw⟩
          · rw [List.mem_singleton] at hx
            exact ⟨vc, hx ▸ hvc⟩
        · intro hx
          have hmem : u ∈ P ++ nid :: st.queue :=
            List.mem_append.mpr (Or.inr (List.mem_cons_of_mem nid hx))
          obtain ⟨w, hw⟩ := hF.lvInt u hmem
          exact ⟨w, by rw [show dictGet u _ = _ from hlv_other u (hcne u hmem)]; exact hw⟩
  case edge =>
    intro l2 hl2 hsrc
    have hsrcne : srcN l2 ≠ tgtN l := by
      intro hc
      exact hcfresh (hc ▸ List.mem_append.mpr (Or.inl hsrc))
    exact hedge_pres l2 hl2 hsrcne (hF.edge l2 hl2 hsrc)
  case edgeDn =>
    intro l2 hl2
    rcases List.mem_append.mp hl2 with hl2 | hl2
    · have hl2src : srcN l2 = nid := by
        have : l2 ∈ fromLinks links nid := by
          rw [hF.split]
          exact List.mem_append.mpr (Or.inl hl2)
        simpa using (List.mem_filter.mp this).2
      have hl2links : l2 ∈ links := by
        have : l2 ∈ fromLinks links nid := by
          rw [hF.split]
          exact List.mem_append.mpr (Or.inl hl2)
        exact (List.mem_filter.mp this).1
      have hsrcne : srcN l2 ≠ tgtN l := by
        rw [hl2src]
        exact hcne nid hnidmem
      exact hedge_pres l2 hl2links hsrcne (hF.edgeDn l2 hl2)
    · rw [List.mem_singleton] at hl2
      subst hl2
      refine ⟨v, vc, ?_, hvc, by omega⟩
      rw [hlsrc, show dictGet nid _ = _ from hlv_other nid (hcne nid hnidmem)]
      exact hv
  case resolved =>
    intro u hu
    rcases List.mem_append.mp hu with hx | hx
    · have hmem : u ∈ P ++ nid :: st.queue := List.mem_append.mpr (Or.inl hx)
      rw [hcounto u (hcne u hmem)]
      exact hF.resolved u hmem
    · rcases List.mem_cons.mp hx with hx | hx
      · subst hx
        rw [hcounto u (hcne u hnidmem)]
        exact hF.resolved u hnidmem
      · revert hx
        show u ∈ (if ((intoCount links (tgtN l) : Int) -
            ((doneCount links P (tgtN l) : Int) + (intoCount dn (tgtN l) : Int)) - 1 = 0)
            then st.queue ++ [tgtN l] else st.queue) → _
        by_cases hdz : (intoCount links (tgtN l) : Int) -
            ((doneCount links P (tgtN l) : Int) + (intoCount dn (tgtN l) : Int)) - 1 = 0
        · rw [if_pos hdz]
          intro hx
          rcases List.mem_append.mp hx with hx | hx
          · have hmem : u ∈ P ++ nid :: st.queue :=
              List.mem_append.mpr (Or.inr (List.mem_cons_of_mem nid hx))
            rw [hcounto u (hcne u hmem)]
            exact hF.resolved u hmem
          · rw [List.mem_singleton] at hx
            subst hx
            exact hd_iff.mp hdz
        · rw [if_neg hdz]
          intro hx
          have hmem : u ∈ P ++ nid :: st.queue :=
            List.mem_append.mpr (Or.inr (List.mem_cons_of_mem nid hx))
          rw [hcounto u (hcne u hmem)]
          exact hF.resolved u hmem
  case complete =>
    intro c2 hc2 hcnt
    by_cases hc2t : c2 = tgtN l
    · rw [hc2t] at hcnt ⊢
      have hdz := hd_iff.mpr hcnt
      show tgtN l ∈ P ++ nid :: (if ((intoCount links (tgtN l) : Int) -
          ((doneCount links P (tgtN l) : Int) + (intoCount dn (tgtN l) : Int)) - 1 = 0)
          then st.queue ++ [tgtN l] else st.queue)
      rw [if_pos hdz]
      refine List.mem_append.mpr (Or.inr (List.mem_cons_of_mem nid ?_))
      exact List.mem_append.mpr (Or.inr (List.mem_singleton.mpr rfl))
    · rw [hcounto c2 hc2t] at hcnt
      have hmem := hF.complete c2 hc2 hcnt
      show c2 ∈ P ++ nid :: (if _ then st.queue ++ [tgtN l] else st.queue)
      rcases List.mem_append.mp hmem with hx | hx
      · exact List.mem_append.mpr (Or.inl hx)
      · rcases List.mem_cons.mp hx with hx | hx
        · exact List.mem_append.mpr (Or.inr (hx ▸ List.mem_cons_self _ _))
        · refine List.mem_append.mpr (Or.inr (List.mem_cons_of_mem nid ?_))
          split
          · exact List.mem_append.mpr (Or.inl hx)
          · exact hx

/-! ## Claim C5: the whole child fold, one iteration, and the loop -/

theorem foldlM_childStep {nodes : List String} {links : List Link}
    (hEnds : ∀ l ∈ links, srcN l ∈ nodes ∧ tgtN l ∈ nodes)
    {P : List String} {nid : String} :
    ∀ (td dn : List Link) (st : BfsState),
      FInv nodes links P nid dn td st →
      ∃ st2, (td.map tgtN).foldlM (childStep nid) st = .ok st2 ∧
        FInv nodes links P nid (dn ++ td) [] st2 := by
  intro td
  induction td with
  | nil =>
    intro dn st hF
    refine ⟨st, rfl, ?_⟩
    rw [List.append_nil]
    exact hF
  | cons l td2 ih =>
    intro dn st hF
    obtain ⟨st2, hstep, hF2⟩ := childStep_finv hEnds hF
    obtain ⟨st3, hfold, hF3⟩ := ih (dn ++ [l]) st2 hF2
    refine ⟨st3, ?_, ?_⟩
    · rw [List.map_cons]
      simp only [List.foldlM_cons, hstep]
      exact hfold
    · rw [List.append_cons]
      exact hF3

theorem kinv_step {nodes : List String} {links : List Link}
    (hEnds : ∀ l ∈ links, srcN l ∈ nodes ∧ tgtN l ∈ nodes)
    {P : List String} {nid : String} {rest : List String} {st : BfsState}
    (hK : KInv nodes links P st) (hq : st.queue = nid :: rest) :
    ∃ st2, (dictGetD nid (buildChildren links) []).foldlM (childStep nid)
        ⟨rest, st.indegree, st.levels⟩ = .ok st2 ∧
      KInv nodes links (P ++ [nid]) st2 := by
  have hnodup : (P ++ nid :: rest).Nodup := by rw [← hq]; exact hK.nodupPQ
  have hnidP : nid ∉ P := by
    intro hc
    obtain ⟨_, _, hdisj⟩ := List.nodup_append.mp hnodup
    exact hdisj hc (List.mem_cons_self nid rest)
  have hF : FInv nodes links P nid [] (fromLinks links nid)
      ⟨rest, st.indegree, st.levels⟩ := by
    refine ⟨(List.nil_append _).symm, hnodup,
      (by intro x hx; exact hK.subPQ x (by rw [hq]; exact hx)), ?_, hK.lvNodes, ?_,
      hK.edge, (by intro l hl; cases hl), ?_, ?_⟩
    · intro c hc
      rw [hK.ind c hc, intoCount_nil]
      simp
    · intro u hu
      exact hK.lvInt u (by rw [hq]; exact hu)
    · intro u hu
      rw [intoCount_nil, Nat.add_zero]
      exact hK.resolved u (by rw [hq]; exact hu)
    · intro c hc hcnt
      rw [intoCount_nil, Nat.add_zero] at hcnt
      have := hK.complete c hc hcnt
      rw [hq] at this
      exact this
  rw [children_eq]
  obtain ⟨st2, hfold, hF2⟩ := foldlM_childStep hEnds (fromLinks links nid) [] _ hF
  rw [List.nil_append] at hF2
  refine ⟨st2, hfold, ?_, ?_, ?_, ?_, ?_, ?_, ?_, ?_⟩
  · rw [List.append_assoc, List.singleton_append]
    exact hF2.nodupPQ
  · intro x hx
    rw [List.append_assoc, List.singleton_append] at hx
    exact hF2.subPQ x hx
  · intro c hc
    rw [hF2.ind c hc, doneCount_append_single links hnidP]
    push_cast
    ring_nf
  · exact hF2.lvNodes
  · intro u hu
    rw [List.append_assoc, List.singleton_append] at hu
    exact hF2.lvInt u hu
  · intro l hl hsrc
    rcases List.mem_append.mp hsrc with hsrc | hsrc
    · exact hF2.edge l hl hsrc
    · rw [List.mem_singleton] at hsrc
      refine hF2.edgeDn l ?_
      exact List.mem_filter.mpr ⟨hl, by simpa using hsrc⟩
  · intro u hu
    rw [List.append_assoc, List.singleton_append] at hu
    rw [doneCount_append_single links hnidP]
    exact hF2.resolved u hu
  · intro c hc hcnt
    rw [doneCount_append_single links hnidP] at hcnt
    have := hF2.complete c hc hcnt
    rw [List.append_assoc, List.singleton_append]
    exact this

theorem bfsLoop_kahn {nodes : List String} {links : List Link}
    (hEnds : ∀ l ∈ links, srcN l ∈ nodes ∧ tgtN l ∈ nodes) :
    ∀ (fuel : Nat) (P : List String) (st : BfsState),
      KInv nodes links P st → nodes.length ≤ fuel + P.length →
      ∃ P2 st2, bfsLoop (buildChildren links) fuel st = .ok st2 ∧ st2.queue = [] ∧
        KInv nodes links P2 st2 := by
  intro fuel
  induction fuel with
  | zero =>
    intro P st hK hlen
    have hsp : (P ++ st.queue).length ≤ nodes.length :=
      (List.subperm_of_subset hK.nodupPQ hK.subPQ).length_le
    rw [List.length_append] at hsp
    cases hq : st.queue with
    | nil => exact ⟨P, st, rfl, hq, hK⟩
    | cons a q =>
      rw [hq] at hsp
      simp only [List.length_cons] at hsp
      omega
  | succ n ih =>
    intro P st hK hlen
    cases hq : st.queue with
    | nil =>
      refine ⟨P, st, ?_, hq, hK⟩
      unfold bfsLoop
      rw [hq]
    | cons nid rest =>
      obtain ⟨st2, hfold, hK2⟩ := kinv_step hEnds hK hq
      obtain ⟨P2, st3, hloop, hq3, hK3⟩ := ih (P ++ [nid]) st2 hK2
        (by rw [List.length_append, List.length_singleton]; omega)
      refine ⟨P2, st3, ?_, hq3, hK3⟩
      rw [bfsLoop_cons (buildChildren links) n hq, hfold]
      exact hloop

/-- C5: on an acyclic projected graph (acyclicity expressed as
well-foundedness of the projected parent relation, the standard reading
for a finite graph) whose link endpoints are all catalog nodes, the
propagation terminates with no exception, assigns an integer level to
every node, and for every field-level link the level of the target node
is strictly greater than the level of the source node. -/
theorem c5_acyclic_levels_increase (nodes : List String) (links : List Link)
    (hnd : nodes.Nodup)
    (hEnds : ∀ l ∈ links, srcN l ∈ nodes ∧ tgtN l ∈ nodes)
    (hwf : WellFounded (projRel links)) :
    ∃ lv, computeLevelsMap nodes links = .ok lv ∧
      ∀ l ∈ links, ∃ vs vt : Int, dictGet (srcN l) lv = some (some vs) ∧
        dictGet (tgtN l) lv = some (some vt) ∧ vs < vt := by
  obtain ⟨P2, st2, hloop, hq2, hK2⟩ := bfsLoop_kahn hEnds
    ((initState nodes links).queue.length + nodes.length + links.length) []
    (initState nodes links) (kinv_init hnd hEnds) (by omega)
  refine ⟨st2.levels, ?_, ?_⟩
  · unfold computeLevelsMap
    rw [hloop]
  · have hPall : ∀ c ∈ nodes, c ∈ P2 := by
      by_contra hcon
      push_neg at hcon
      obtain ⟨c0, hc0N, hc0P⟩ := hcon
      obtain ⟨m, hmU, hmin⟩ := hwf.has_min {x | x ∈ nodes ∧ x ∉ P2} ⟨c0, hc0N, hc0P⟩
      have hnotmem : m ∉ P2 ++ st2.queue := by
        rw [hq2, List.append_nil]
        exact hmU.2
      have hne : doneCount links P2 m ≠ intoCount links m :=
        fun heq => hnotmem (hK2.complete m hmU.1 heq)
      have hnall : ¬ ∀ l ∈ intoLinks links m, srcN l ∈ P2 := by
        intro hall
        apply hne
        unfold doneCount intoCount
        rw [List.filter_eq_self.mpr (fun l hl => by simpa using hall l hl)]
      push_neg at hnall
      obtain ⟨l0, hl0mem, hl0src⟩ := hnall
      have hl0links : l0 ∈ links := (List.mem_filter.mp hl0mem).1
      have hl0tgt : tgtN l0 = m := by simpa using (List.mem_filter.mp hl0mem).2
      exact hmin (srcN l0) ⟨(hEnds l0 hl0links).1, hl0src⟩ ⟨l0, hl0links, rfl, hl0tgt⟩
    intro l hl
    exact hK2.edge l hl (hPall (srcN l) (hEnds l hl).1)

theorem c5_witness :
    ∃ lv, computeLevelsMap demoLevelNodes demoLevelLinks = .ok lv ∧
      ∀ l ∈ demoLevelLinks, ∃ vs vt : Int, dictGet (srcN l) lv = some (some vs) ∧
        dictGet (tgtN l) lv = some (some vt) ∧ vs < vt := by
  refine c5_acyclic_levels_increase demoLevelNodes demoLevelLinks (by decide)
    (by decide) ?_
  refine Subrelation.wf (r := InvImage (· < ·)
    (fun s : String => if s = "n2" then (1 : Nat) else 0)) ?_
    (InvImage.wf _ Nat.lt_wfRel.wf)
  intro x y hxy
  obtain ⟨l, hl, hsx, hty⟩ := hxy
  have hl2 : l = mkLink "n1" "a" "n2" "b" := by
    simpa [demoLevelLinks] using hl
  subst hl2
  subst hsx
  subst hty
  show (if srcN (mkLink "n1" "a" "n2" "b") = "n2" then (1 : Nat) else 0) <
    (if tgtN (mkLink "n1" "a" "n2" "b") = "n2" then (1 : Nat) else 0)
  decide

end Ibpmvis
